import Mathlib

/-!
# dd-zipkin-proxy: the v2 span decoder, the span merger and the skew corrector

A shallow embedding of `jsoncodec/v2.go` (`SpanV2.ToZipkincoreSpan`) together with
the pieces of the Go runtime and standard library that this function relies on
(`strconv.ParseInt`, the conversion of a `float64` to `int64`, map iteration), and of
the tree, merger and corrector that `correct_test.go` exercises.
-/

namespace Zipkinproxy

/-! ## Machine integers -/

/-- Two's complement reduction to the signed 64-bit range: the Go conversion `int64(x)`
of an integer value and the result of `int64` arithmetic. -/
def wrapInt64 (x : Int) : Int := (x + 2 ^ 63) % 2 ^ 64 - 2 ^ 63

/-- The smallest `int64`. -/
def minInt64 : Int := -(2 ^ 63)

/-- The largest `int64`. -/
def maxInt64 : Int := 2 ^ 63 - 1

/-- The largest `uint64`. -/
def maxUint64 : Nat := 2 ^ 64 - 1

/-! ## `strconv.ParseInt(s, 10, 64)` -/

/-- The two errors of `strconv`: `ErrSyntax` and `ErrRange`. -/
inductive NumError where
  | ErrSyntax
  | ErrRange
  deriving DecidableEq, Repr

/-- The helper `lower` of `strconv`: `c | ('x' - 'X')`. -/
def lower (c : Nat) : Nat := c ||| 32

/-- The digit value that the loop of `ParseUint` assigns to a byte, `none` for the
`default` case of its switch. With base 10 the underscore case is never taken. A
character outside ASCII stands for bytes that are all at least `0x80`, and they reach
the `default` case as the character itself does here. -/
def digitOf (c : Char) : Option Nat :=
  if 48 ≤ c.toNat ∧ c.toNat ≤ 57 then some (c.toNat - 48)
  else if 97 ≤ lower c.toNat ∧ lower c.toNat ≤ 122 then some (lower c.toNat - 97 + 10)
  else none

/-- The `cutoff` of `ParseUint` for base 10: `maxUint64/10 + 1`. -/
def cutoff10 : Nat := maxUint64 / 10 + 1

/-- The loop of `strconv.ParseUint(s, 10, 64)` over the bytes of `s`, with the
accumulator `n`; the result is the pair `(value, err)` that `ParseUint` returns. -/
def parseUintLoop : List Char → Nat → Nat × Option NumError
  | [], n => (n, none)
  | c :: cs, n =>
    match digitOf c with
    | none => (0, some NumError.ErrSyntax)
    | some d =>
      if d ≥ 10 then (0, some NumError.ErrSyntax)
      else if n ≥ cutoff10 then (maxUint64, some NumError.ErrRange)
      else
        let n10 := (n * 10) % 2 ^ 64
        let n1 := (n10 + d) % 2 ^ 64
        if n1 < n10 ∨ n1 > maxUint64 then (maxUint64, some NumError.ErrRange)
        else parseUintLoop cs n1

/-- The call `strconv.ParseUint(s, 10, 64)` on the characters of `s`. -/
def ParseUint (s : List Char) : Nat × Option NumError :=
  if s = [] then (0, some NumError.ErrSyntax) else parseUintLoop s 0

/-- The call `strconv.ParseInt(s, 10, 64)`: the pair `(i, err)` it returns. On a range
error the value is the nearest bound of `int64`, on a syntax error it is 0. -/
def ParseInt (s : String) : Int × Option NumError :=
  match s.toList with
  | [] => (0, some NumError.ErrSyntax)
  | c :: rest =>
    let neg := c = '-'
    let body := if c = '+' ∨ c = '-' then rest else c :: rest
    let r := ParseUint body
    let un := r.1
    if r.2 = some NumError.ErrSyntax then (0, some NumError.ErrSyntax)
    else
      let cutoff : Nat := 2 ^ 63
      if ¬ neg ∧ un ≥ cutoff then ((cutoff : Int) - 1, some NumError.ErrRange)
      else if neg ∧ un > cutoff then (-(cutoff : Int), some NumError.ErrRange)
      else
        let n := wrapInt64 (un : Int)
        (if neg then wrapInt64 (-n) else n, none)

/-! ## `float64` -/

/-- An IEEE-754 binary64 value. A finite value is `(-1)^neg * mant * 2^exp`; the values
a `float64` holds have `mant < 2^53` and `-1074 ≤ exp ≤ 971`. -/
inductive Float64 where
  | finite (neg : Bool) (mant : Nat) (exp : Int)
  | inf (neg : Bool)
  | nan
  deriving DecidableEq, Repr

/-- The finite values that fit the binary64 format. -/
def Float64.WF : Float64 → Prop
  | Float64.finite _ m e => m < 2 ^ 53 ∧ -1074 ≤ e ∧ e ≤ 971
  | _ => True

/-- The rational number a finite `float64` denotes (0 for infinities and NaN). -/
def Float64.toRat : Float64 → ℚ
  | Float64.finite neg m e => (if neg then -1 else 1) * (m : ℚ) * (2 : ℚ) ^ e
  | _ => 0

/-- Whether the value is finite. -/
def Float64.isFinite : Float64 → Bool
  | Float64.finite _ _ _ => true
  | _ => false

/-- The result of `int64(f)` when `f` does not fit: Go leaves it implementation
dependent; amd64 produces the smallest `int64`. -/
def int64Indefinite : Int := minInt64

/-- The Go conversion `int64(f)` of a `float64`: the fraction is discarded (truncation
toward zero). -/
def Float64.toInt64 : Float64 → Int
  | Float64.finite neg m e =>
    let mag : Nat := if 0 ≤ e then m * 2 ^ e.toNat else m / 2 ^ (-e).toNat
    let v : Int := if neg then -(mag : Int) else (mag : Int)
    if minInt64 ≤ v ∧ v ≤ maxInt64 then v else int64Indefinite
  | _ => int64Indefinite

/-- The position of the leading bit of `a`, computed with `fuel` halvings at most. -/
def leadingBitFuel : Nat → Nat → Nat
  | 0, _ => 0
  | fuel + 1, a => if a < 2 then 0 else leadingBitFuel fuel (a / 2) + 1

/-- The position of the leading bit of `a`: the binary logarithm rounded down. -/
def leadingBit (a : Nat) : Nat := leadingBitFuel a a

/-- The `float64` nearest to the integer `n`, ties to even: what `encoding/json` stores
in an `interface{}` for the bare JSON number `n`. -/
def float64OfInt (n : Int) : Float64 :=
  let a := n.natAbs
  if a < 2 ^ 53 then Float64.finite (decide (n < 0)) a 0
  else
    let k := leadingBit a - 52
    let q := a / 2 ^ k
    let r := a % 2 ^ k
    let half := 2 ^ (k - 1)
    let up := decide (r > half) || (decide (r = half) && decide (q % 2 = 1))
    let m := if up then q + 1 else q
    if m = 2 ^ 53 then Float64.finite (decide (n < 0)) (2 ^ 52) (k + 1)
    else Float64.finite (decide (n < 0)) m k

/-! ## The data model of `jsoncodec` and `zipkincore` -/

/-- A Go `interface{}` value as `encoding/json` and callers can store it in the
`Timestamp` and `Duration` fields: the two dynamic types the type switches name, and
the others. -/
inductive Iface where
  | nil
  | bool (b : Bool)
  | str (s : String)
  | float64 (f : Float64)
  | other (typeName : String)
  deriving DecidableEq, Repr

/-- The type `jsoncodec.Id`. The pointer conversion `(*int64)(parentId)` requires its
underlying type to be `int64`, so the conversions `int64(span.TraceID)` and
`int64(span.ID)` leave the value as it is. -/
abbrev Id := Int

/-- The struct `zipkincore.Endpoint`. -/
structure Endpoint where
  Ipv4 : Int
  Port : Int
  ServiceName : String
  Ipv6 : List UInt8
  deriving DecidableEq, Repr

/-- The enum `zipkincore.AnnotationType`. -/
inductive AnnotationType where
  | BOOL | BYTES | I16 | I32 | I64 | DOUBLE | STRING
  deriving DecidableEq, Repr

/-- The struct `zipkincore.Annotation`. -/
structure Annotation where
  Timestamp : Int
  Value : String
  Host : Option Endpoint
  deriving DecidableEq, Repr

/-- The struct `zipkincore.BinaryAnnotation`. -/
structure BinaryAnnotation where
  Key : String
  Value : List UInt8
  AnnotationType : AnnotationType
  Host : Option Endpoint
  deriving DecidableEq, Repr

/-- The struct `zipkincore.Span`. -/
structure Span where
  TraceID : Int
  Name : String
  ID : Int
  ParentID : Option Int
  Annotations : List Annotation
  BinaryAnnotations : List BinaryAnnotation
  Debug : Bool
  Timestamp : Option Int
  Duration : Option Int
  TraceIDHigh : Option Int
  deriving DecidableEq, Repr

/-- The struct `jsoncodec.SpanV2`; `E` is the type `jsoncodec.Endpoint`. A nil map is
`none`. -/
structure SpanV2 (E : Type) where
  TraceID : Id
  ID : Id
  ParentID : Option Id
  Name : String
  Endpoint : Option E
  Tags : Option (List (String × String))
  Kind : String
  Timestamp : Iface
  Duration : Iface

/-- The errors `ToZipkincoreSpan` records in `err`. -/
inductive DecodeError where
  | num (e : NumError)
  | new (msg : String)
  deriving DecidableEq, Repr

/-- The order in which a `range` loop visits the entries of a map: Go leaves it
unspecified, every entry is visited once. -/
structure RangeOrder where
  pick : List (String × String) → List (String × String)
  perm : ∀ m, (pick m).Perm m

/-- The iteration that visits the entries as they are listed. -/
def RangeOrder.listed : RangeOrder := ⟨fun m => m, fun m => List.Perm.refl m⟩

/-- Modelled from the spec: `cache.String`, the string-interning cache of the decoding
layer, returns a string equal to its argument. -/
def cacheString (s : String) : String := s

/-- Modelled from the spec: `toBytesCached`, the interned bytes of a tag value. -/
def toBytesCached (s : String) : List UInt8 := s.toUTF8.data.toList

/-- Go `len` of a map. -/
def mapLen (m : Option (List (String × String))) : Nat :=
  match m with
  | none => 0
  | some l => l.length

/-- The first type switch of `ToZipkincoreSpan`: `(timeStamp, err)` after it. -/
def switchTimestamp (v : Iface) : Int × Option DecodeError :=
  match v with
  | Iface.str s => ((ParseInt s).1, (ParseInt s).2.map DecodeError.num)
  | Iface.float64 f => (f.toInt64, none)
  | _ => (0, some (DecodeError.new "Incorrect data type for `Timestamp`"))

/-- The second type switch of `ToZipkincoreSpan`, entered with the `err` the first one
left: `(duration, err)` after it. -/
def switchDuration (v : Iface) (err : Option DecodeError) : Int × Option DecodeError :=
  match v with
  | Iface.str s => ((ParseInt s).1, (ParseInt s).2.map DecodeError.num)
  | Iface.float64 f => (f.toInt64, err)
  | _ => (0, some (DecodeError.new "Incorrect data type for `Duration`"))

/-- Lines 35 to 38 of `ToZipkincoreSpan`: a receiver without tags gets the map with the
single entry `"dd.name"`, the name of the span. -/
def synthesizeTags {E : Type} (span : SpanV2 E) : SpanV2 E :=
  if mapLen span.Tags = 0 then { span with Tags := some [("dd.name", span.Name)] } else span

/-- The `range` loop over the tags: one binary annotation for each entry visited. -/
def tagAnnotations (ro : RangeOrder) (endpoint : Option Endpoint)
    (tags : Option (List (String × String))) : List BinaryAnnotation :=
  (ro.pick (tags.getD [])).map fun kv =>
    { Key := cacheString kv.1
      Value := toBytesCached kv.2
      AnnotationType := AnnotationType.STRING
      Host := endpoint }

/-- The method `(*SpanV2).ToZipkincoreSpan`: the receiver after the call and the
returned span (`none` for nil). `endpointToZipkin` is the conversion of the local
endpoint, `ro` the order in which the tags are visited. -/
def ToZipkincoreSpan {E : Type} (ro : RangeOrder) (endpointToZipkin : Option E → Option Endpoint)
    (span : SpanV2 E) : SpanV2 E × Option Span :=
  let annotations : List Annotation := []
  let endpoint := endpointToZipkin span.Endpoint
  let span := synthesizeTags span
  let binaryAnnotations := tagAnnotations ro endpoint span.Tags
  let parentId := if span.TraceID = span.ID then none else span.ParentID
  let ts := switchTimestamp span.Timestamp
  let du := switchDuration span.Duration ts.2
  match du.2 with
  | some _ => (span, none)
  | none =>
    (span, some
      { TraceID := span.TraceID
        ID := span.ID
        Name := cacheString span.Name
        ParentID := parentId
        Annotations := annotations
        BinaryAnnotations := binaryAnnotations
        Debug := false
        Timestamp := some ts.1
        Duration := some du.1
        TraceIDHigh := none })

/-- Whether a `Timestamp` or `Duration` value can be interpreted as the required
integer: it is a number, or a string that `strconv.ParseInt` parses without error. -/
def isIntegerEncoding (v : Iface) : Bool :=
  match v with
  | Iface.float64 _ => true
  | Iface.str s => (ParseInt s).2.isNone
  | _ => false

/-- Value of a big-endian list of decimal digits read after the accumulator `acc`. -/
def digitsValue (acc : Nat) (ms : List Nat) : Nat := ms.foldl (fun a m => a * 10 + m) acc

/-- The span of `TestSpanV2TimigAndDurationAsString`. -/
def testSpanString : SpanV2 Unit :=
  { TraceID := 0, ID := 1, ParentID := none, Name := "", Endpoint := none, Tags := none,
    Kind := "", Timestamp := Iface.str "1234567890123456",
    Duration := Iface.str "1234567890123457" }

/-- An endpoint conversion for spans without a local endpoint. -/
def noEndpoint : Option Unit → Option Endpoint := fun _ => none

/-- A span whose Timestamp is not a number but whose Duration is a decimal string. -/
def spanBadTimestamp : SpanV2 Unit :=
  { TraceID := 0, ID := 1, ParentID := none, Name := "", Endpoint := none, Tags := none,
    Kind := "", Timestamp := Iface.str "abc", Duration := Iface.str "5" }

/-- A span whose Duration is a boolean. -/
def spanBadDuration : SpanV2 Unit :=
  { TraceID := 0, ID := 1, ParentID := none, Name := "", Endpoint := none, Tags := none,
    Kind := "", Timestamp := Iface.str "5", Duration := Iface.bool true }

/-- A root span (trace id equal to span id) that carries a parent id, with one tag. -/
def spanRootWithParent : SpanV2 Unit :=
  { TraceID := 7, ID := 7, ParentID := some 3, Name := "/", Endpoint := none,
    Tags := some [("k", "v")], Kind := "SERVER",
    Timestamp := Iface.float64 (Float64.finite false 3 0), Duration := Iface.str "4" }

/-- A span with an empty, non-nil tag map. -/
def spanEmptyTags : SpanV2 Unit :=
  { TraceID := 7, ID := 8, ParentID := none, Name := "/", Endpoint := none,
    Tags := some [], Kind := "SERVER",
    Timestamp := Iface.str "3", Duration := Iface.str "4" }

/-- The span returned for `spanBadTimestamp`. -/
def spanBadTimestampOut : Span :=
  { TraceID := 0, Name := "", ID := 1, ParentID := none, Annotations := [],
    BinaryAnnotations := [{ Key := "dd.name", Value := [],
                            AnnotationType := AnnotationType.STRING, Host := none }],
    Debug := false, Timestamp := some 0, Duration := some 5, TraceIDHigh := none }

/-- The span returned for `spanRootWithParent`. -/
def spanRootWithParentOut : Span :=
  { TraceID := 7, Name := "/", ID := 7, ParentID := none, Annotations := [],
    BinaryAnnotations := [{ Key := "k", Value := [118],
                            AnnotationType := AnnotationType.STRING, Host := none }],
    Debug := false, Timestamp := some 3, Duration := some 4, TraceIDHigh := none }

/-- The span returned for `spanEmptyTags`. -/
def spanEmptyTagsOut : Span :=
  { TraceID := 7, Name := "/", ID := 8, ParentID := none, Annotations := [],
    BinaryAnnotations := [{ Key := "dd.name", Value := [47],
                            AnnotationType := AnnotationType.STRING, Host := none }],
    Debug := false, Timestamp := some 3, Duration := some 4, TraceIDHigh := none }

/-- Truncation of a rational toward zero: the fractional part is discarded. -/
def truncTowardZero (q : ℚ) : Int := if 0 ≤ q then ⌊q⌋ else ⌈q⌉

/-- The span of `TestSpanV2TimigAndDurationAsNumber`, with a fractional duration. -/
def testSpanNumber : SpanV2 Unit :=
  { TraceID := 7, ID := 8, ParentID := none, Name := "/", Endpoint := none,
    Tags := none, Kind := "SERVER",
    Timestamp := Iface.float64 (Float64.finite false 1544326139547000 0),
    Duration := Iface.float64 (Float64.finite true 2913619 (-1)) }

/-- The span `span` with both `timestamp` and `duration` encoded as `v`. -/
def withTiming {E : Type} (span : SpanV2 E) (v : Iface) : SpanV2 E :=
  { span with Timestamp := v, Duration := v }

/-- The Timestamp and Duration of a decoded span. -/
def timingOf (r : Option Span) : Option (Option Int × Option Int) :=
  r.map fun sp => (sp.Timestamp, sp.Duration)

/-- The timing decoded from the quoted decimal string of `n`. -/
def decodeQuoted {E : Type} (ro : RangeOrder) (e2z : Option E → Option Endpoint)
    (span : SpanV2 E) (n : Int) : Option (Option Int × Option Int) :=
  timingOf (ToZipkincoreSpan ro e2z (withTiming span (Iface.str (toString n)))).2

/-- The timing decoded from the bare JSON number `n`, delivered as a `float64`. -/
def decodeBare {E : Type} (ro : RangeOrder) (e2z : Option E → Option Endpoint)
    (span : SpanV2 E) (n : Int) : Option (Option Int × Option Int) :=
  timingOf (ToZipkincoreSpan ro e2z (withTiming span (Iface.float64 (float64OfInt n)))).2

/-! ## The span merger, the span tree and the skew corrector

The functions `mergeSpansInPlace`, `newTree`, `AddSpan`, `GetSpan`, `ChildrenOf`, `Root`
and `correctTreeTimings` are called by `correct_test.go`; their definitions follow
sections 4.1 to 4.3 of the specification. Timestamps, skews and the base offset are
`int64` values, as the specification and `correct_test.go` have them, and the arithmetic
on them is the one of Go, which wraps around. -/

/-- The sum `a + b` of two `int64` values in Go. -/
def add64 (a b : Int) : Int := wrapInt64 (a + b)

/-- The difference `a - b` of two `int64` values in Go. -/
def sub64 (a b : Int) : Int := wrapInt64 (a - b)

/-- Whether an integer is an `int64` value. -/
abbrev isInt64 (x : Int) : Prop := minInt64 ≤ x ∧ x ≤ maxInt64

/-- Modelled from the spec: the test of the merger for an event name, whose code is
missing: whether the annotations contain an event with the given value. -/
def hasAnnotation (as : List Annotation) (value : String) : Bool :=
  as.any fun a => decide (a.Value = value)

/-- Modelled from the spec: `mergeSpansInPlace(first, second)`, whose body is missing.
The half `second` is server-side when its annotations contain "sr"; then its annotations
and tags come first, otherwise those of `first` come first. The other fields are those
of `first`, except that an optional field `first` lacks is taken from `second`. The
result is the record `first` holds after the call. -/
def mergeSpansInPlace (first second : Span) : Span :=
  let serverSide := hasAnnotation second.Annotations "sr"
  { first with
    Annotations :=
      if serverSide then second.Annotations ++ first.Annotations
      else first.Annotations ++ second.Annotations
    BinaryAnnotations :=
      if serverSide then second.BinaryAnnotations ++ first.BinaryAnnotations
      else first.BinaryAnnotations ++ second.BinaryAnnotations
    ParentID := first.ParentID.orElse fun _ => second.ParentID
    Timestamp := first.Timestamp.orElse fun _ => second.Timestamp
    Duration := first.Duration.orElse fun _ => second.Duration
    TraceIDHigh := first.TraceIDHigh.orElse fun _ => second.TraceIDHigh }

/-- Modelled from the spec: the key `(parentID, id)` of the mapping of the tree, whose
declaration is missing: the parent id of a span, when it has one, and its id. -/
abbrev Key := Option Int × Int

/-- Modelled from the spec: the key under which the tree stores a span. -/
def keyOf (s : Span) : Key := (s.ParentID, s.ID)

/-- Modelled from the spec: the span tree, whose declaration is missing. It is the
mapping from `(parentID, id)` to the stored span, kept as the list of its entries in the
order the keys were first inserted. -/
structure Tree where
  nodes : List (Key × Span)
  deriving DecidableEq, Repr

/-- Modelled from the spec: `newTree()`, the empty tree. -/
def newTree : Tree := ⟨[]⟩

/-- Modelled from the spec: `GetSpan(parentID, id)`, the exact key lookup; `none` is
NotFound. -/
def Tree.GetSpan (t : Tree) (parentID : Option Int) (id : Int) : Option Span :=
  (t.nodes.find? fun e => decide (e.1 = (parentID, id))).map fun e => e.2

/-- Modelled from the spec: `AddSpan(span)`. A span whose key is present is merged into
the stored one, the stored span as the first argument of the merger and the incoming one
as the second; otherwise the span is stored under its key. -/
def Tree.AddSpan (t : Tree) (s : Span) : Tree :=
  if t.nodes.any (fun e => decide (e.1 = keyOf s)) then
    ⟨t.nodes.map fun e => if e.1 = keyOf s then (e.1, mergeSpansInPlace e.2 s) else e⟩
  else ⟨t.nodes ++ [(keyOf s, s)]⟩

/-- Modelled from the spec: `ChildrenOf(span)`, the stored spans whose parent id is the
id of `span`. -/
def Tree.ChildrenOf (t : Tree) (s : Span) : List Span :=
  (t.nodes.filter fun e => decide (e.1.1 = some s.ID)).map fun e => e.2

/-- Modelled from the spec: the test of `Root()`, whose code is missing: whether the
parent reference of a stored span is satisfied by a span of the tree. -/
def Tree.hasParent (t : Tree) (s : Span) : Bool :=
  match s.ParentID with
  | none => false
  | some p => t.nodes.any fun e => decide (e.2.ID = p)

/-- Modelled from the spec: `Root()`, the span with no satisfiable parent reference;
`none` (NotFound) unless exactly one span qualifies. -/
def Tree.Root (t : Tree) : Option Span :=
  match t.nodes.filter fun e => !t.hasParent e.2 with
  | [e] => some e.2
  | _ => none

/-- Modelled from the spec: the lookup of an event of the corrector, whose code is
missing: the timestamp of the first annotation with the given value. -/
def annotationTime (as : List Annotation) (value : String) : Option Int :=
  (as.find? fun a => decide (a.Value = value)).map fun a => a.Timestamp

/-- Modelled from the spec: the test for a merge point of step 2 of the corrector, whose
code is missing: the four timestamps `(cs, cr, sr, ss)` of a span that carries all four
annotations. -/
def mergePoint (s : Span) : Option (Int × Int × Int × Int) :=
  match annotationTime s.Annotations "cs", annotationTime s.Annotations "cr",
    annotationTime s.Annotations "sr", annotationTime s.Annotations "ss" with
  | some cs, some cr, some sr, some ss => some (cs, cr, sr, ss)
  | _, _, _, _ => none

/-- Modelled from the spec: step 2 and step 4 of the corrector, whose code is missing:
the skew handed to the subtree of a span. A merge point replaces the inherited skew by
`((sr - cs) + (ss - cr)) / 2`, computed on `int64` as Go does: the differences and their
sum wrap around and the division truncates (halving an `int64` stays in range). Any
other span hands the inherited skew on. -/
def subtreeSkew (s : Span) (inherited : Int) : Int :=
  match mergePoint s with
  | some (cs, cr, sr, ss) => Int.tdiv (add64 (sub64 sr cs) (sub64 ss cr)) 2
  | none => inherited

/-- Modelled from the spec: step 2 and step 3 of the corrector, whose code is missing:
the corrected timestamp of a span below the root. A merge point gets its `cs` value plus
the inherited skew, any other span its own timestamp minus the inherited skew;
`baseOffset` is added to both. The sums and the difference are those of `int64`. -/
def correctedTimestamp (s : Span) (inherited baseOffset : Int) : Option Int :=
  match mergePoint s with
  | some (cs, _, _, _) => some (add64 (add64 cs inherited) baseOffset)
  | none => s.Timestamp.map fun t => add64 (sub64 t inherited) baseOffset

/-- Modelled from the spec: the rewrite in place of a timestamp by the corrector, whose
code is missing: replace the timestamp of the span stored under `k`. -/
def Tree.setTimestamp (t : Tree) (k : Key) (ts : Option Int) : Tree :=
  ⟨t.nodes.map fun e => if e.1 = k then (e.1, { e.2 with Timestamp := ts }) else e⟩

/-- Modelled from the spec: the reverse index of the tree from an id to the keys of its
direct children, whose declaration is missing. -/
def Tree.childKeys (t : Tree) (id : Int) : List Key :=
  (t.nodes.filter fun e => decide (e.1.1 = some id)).map fun e => e.1

/-- Modelled from the spec: the walk of the corrector below the root, whose code is
missing: correct the span stored under `k` with the inherited skew, then its children
with the skew of its subtree. The depth of the walk is bounded by `fuel`. -/
def correctSubtree : Nat → Int → Tree → Key → Int → Tree
  | 0, _, t, _, _ => t
  | fuel + 1, baseOffset, t, k, inherited =>
    match t.GetSpan k.1 k.2 with
    | none => t
    | some s =>
      (t.childKeys s.ID).foldl
        (fun acc ck => correctSubtree fuel baseOffset acc ck (subtreeSkew s inherited))
        (t.setTimestamp k (correctedTimestamp s inherited baseOffset))

/-- Modelled from the spec: `correctTreeTimings(tree, root, baseOffset)`, whose body is
missing. The timestamp of the root becomes `root.timestamp + baseOffset`, an `int64`
sum, and the walk goes down from the root with a cumulative skew of 0; the depth of a
tree is at most the number of its spans. The result is `none` (the precondition
violation) when `root` is not the root of the tree. -/
def correctTreeTimings (t : Tree) (root : Span) (baseOffset : Int) : Option Tree :=
  match t.Root with
  | none => none
  | some r =>
    if keyOf r = keyOf root then
      some ((t.childKeys r.ID).foldl
        (fun acc ck => correctSubtree t.nodes.length baseOffset acc ck (subtreeSkew r 0))
        (t.setTimestamp (keyOf r) (r.Timestamp.map fun ts => add64 ts baseOffset)))
    else none

/-- A span with the given value as its only annotation, as the merger tests build it. -/
def spanAnnotated (values : List String) : Span :=
  { TraceID := 0, Name := "", ID := 0, ParentID := none,
    Annotations := values.map fun v => { Timestamp := 0, Value := v, Host := none },
    BinaryAnnotations := [], Debug := false, Timestamp := none, Duration := none,
    TraceIDHigh := none }

/-- A span with the given annotation values and tag keys, as the merger tests build it. -/
def spanTagged (values keys : List String) : Span :=
  { spanAnnotated values with
    BinaryAnnotations := keys.map fun k =>
      { Key := k, Value := [], AnnotationType := AnnotationType.BOOL, Host := none } }

/-- A span as `threeSpans` of `correct_test.go` builds it: id, parent, the two
annotations `(v1, t1)` and `(v2, t2)`, timestamp `t1` and duration `t2 - t1`. -/
def timedSpan (id : Int) (parent : Option Int) (v1 : String) (t1 : Int) (v2 : String)
    (t2 : Int) : Span :=
  { TraceID := 0, Name := "", ID := id, ParentID := parent,
    Annotations := [{ Timestamp := t1, Value := v1, Host := none },
                    { Timestamp := t2, Value := v2, Host := none }],
    BinaryAnnotations := [], Debug := false, Timestamp := some t1,
    Duration := some (wrapInt64 (t2 - t1)), TraceIDHigh := none }

/-- The function `threeSpans` of `correct_test.go`: the four spans
`(client, sharedClient, sharedServer, server)`. -/
def threeSpans (cs cr sr ss : Int) : Span × Span × Span × Span :=
  (timedSpan 1 none "cs" cs "cr" cr,
   timedSpan 2 (some 1) "cs" cs "cr" cr,
   timedSpan 2 (some 1) "sr" sr "ss" ss,
   timedSpan 3 (some 2) "sr" sr "ss" ss)

/-- The slice `spans` of `TestCorrectTimings`, indexed: `spans[i]`. -/
def spanAt (cs cr sr ss : Int) (i : Fin 4) : Span :=
  match i with
  | 0 => (threeSpans cs cr sr ss).1
  | 1 => (threeSpans cs cr sr ss).2.1
  | 2 => (threeSpans cs cr sr ss).2.2.1
  | 3 => (threeSpans cs cr sr ss).2.2.2

/-- The tree of `TestCorrectTimings`: the four spans of `threeSpans` added to a new tree
in the order `indices` gives. -/
def treeOf (cs cr sr ss : Int) (indices : List (Fin 4)) : Tree :=
  (indices.map (spanAt cs cr sr ss)).foldl Tree.AddSpan newTree

/-- The tree of `TestCorrectTimings` after `correctTreeTimings(tree, client, baseOffset)`. -/
def correctedTree (cs cr sr ss baseOffset : Int) (indices : List (Fin 4)) : Option Tree :=
  correctTreeTimings (treeOf cs cr sr ss indices) (threeSpans cs cr sr ss).1 baseOffset

/-- The corrected timestamp read from the span stored under `(parentID, id)`. -/
def correctedAt (t : Option Tree) (parentID : Option Int) (id : Int) : Option Int :=
  (t.bind fun tr => tr.GetSpan parentID id).bind fun s => s.Timestamp

/-- The 24 orders in which the four spans can be inserted. -/
def insertionOrders : List (List (Fin 4)) :=
  [[0, 1, 2, 3], [0, 1, 3, 2], [0, 2, 1, 3], [0, 2, 3, 1], [0, 3, 1, 2], [0, 3, 2, 1], [1, 0, 2, 3], [1, 0, 3, 2], [1, 2, 0, 3], [1, 2, 3, 0], [1, 3, 0, 2], [1, 3, 2, 0], [2, 0, 1, 3], [2, 0, 3, 1], [2, 1, 0, 3], [2, 1, 3, 0], [2, 3, 0, 1], [2, 3, 1, 0], [3, 0, 1, 2], [3, 0, 2, 1], [3, 1, 0, 2], [3, 1, 2, 0], [3, 2, 0, 1], [3, 2, 1, 0]]

/-- The six orders in which a tree can list three entries: a root `c`, a span `m` with
id 2 below it and a span `s` with id 3 below `m`. -/
def threeNodes (c m s : Span) : List (List (Key × Span)) :=
  [[((none, 1), c), ((some 1, 2), m), ((some 2, 3), s)],
   [((none, 1), c), ((some 2, 3), s), ((some 1, 2), m)],
   [((some 1, 2), m), ((none, 1), c), ((some 2, 3), s)],
   [((some 1, 2), m), ((some 2, 3), s), ((none, 1), c)],
   [((some 2, 3), s), ((none, 1), c), ((some 1, 2), m)],
   [((some 2, 3), s), ((some 1, 2), m), ((none, 1), c)]]

/-- A span whose Timestamp is a decimal string above the largest `int64`. -/
def spanHugeTimestamp : SpanV2 Unit :=
  { TraceID := 0, ID := 1, ParentID := none, Name := "", Endpoint := none, Tags := none,
    Kind := "", Timestamp := Iface.str "9223372036854775808", Duration := Iface.str "5" }

/-- The binary annotation the decoder builds for the tag `kv` of a span whose converted
endpoint is `endpoint`. -/
def tagOf (endpoint : Option Endpoint) (kv : String × String) : BinaryAnnotation :=
  { Key := kv.1, Value := toBytesCached kv.2, AnnotationType := AnnotationType.STRING,
    Host := endpoint }

/-- A span with two tags and a parent, not a root. -/
def spanTwoTags : SpanV2 Unit :=
  { TraceID := 7, ID := 8, ParentID := some 3, Name := "get", Endpoint := none,
    Tags := some [("a", "x"), ("b", "y")], Kind := "CLIENT",
    Timestamp := Iface.str "3", Duration := Iface.str "4" }

/-- The span returned for `spanTwoTags` when the tags are visited as listed. -/
def spanTwoTagsOut : Span :=
  { TraceID := 7, Name := "get", ID := 8, ParentID := some 3, Annotations := [],
    BinaryAnnotations := [tagOf none ("a", "x"), tagOf none ("b", "y")],
    Debug := false, Timestamp := some 3, Duration := some 4, TraceIDHigh := none }

/-- The iteration that visits the entries in the reverse of the listed order. -/
def RangeOrder.reversed : RangeOrder := ⟨fun m => m.reverse, fun m => List.reverse_perm m⟩

/-- The tree that holds the spans of `spans`, added to a new tree one after the other. -/
def buildTree (spans : List Span) : Tree := spans.foldl Tree.AddSpan newTree

/-- The keys of a tree, in the order of its entries. -/
def Tree.keys (t : Tree) : List Key := t.nodes.map fun e => e.1

/-- The record that merging the spans of `halves` one after the other into the first of
them leaves; `none` when there is no span. -/
def mergeAll (halves : List Span) : Option Span :=
  match halves with
  | [] => none
  | s :: rest => some (rest.foldl mergeSpansInPlace s)

/-- The spans of `spans` that are stored under the key `k`, in their order. -/
def halvesAt (spans : List Span) (k : Key) : List Span :=
  spans.filter fun s => decide (keyOf s = k)

/-- Whether a key has a parent reference that a key of `keys` satisfies. -/
def keyHasParent (keys : List Key) (k : Key) : Bool :=
  match k.1 with
  | none => false
  | some p => keys.any fun k1 => decide (k1.2 = p)

/-- The spans of `TestTree`: `firstSpan` with id 1 and `secondSpan` with id 2 below it. -/
def testTreeSpans : Span × Span :=
  ({ spanAnnotated [] with ID := 1 }, { spanAnnotated [] with ID := 2, ParentID := some 1 })

/-- Two halves stored under one key, the first with the annotation "first" and the
timestamp 1, the second with the annotation "second" and the timestamp 2. -/
def twoHalves : Span × Span :=
  ({ spanAnnotated ["first"] with ID := 2, ParentID := some 1, Timestamp := some 1 },
   { spanAnnotated ["second"] with ID := 2, ParentID := some 1, Timestamp := some 2 })

/-- The only element of a one-element list. -/
def onlyOne {α : Type} (l : List α) : Option α :=
  match l with
  | [a] => some a
  | _ => none

/-- The key under which `Root()` finds its span, read from the keys alone. -/
def rootKey (keys : List Key) : Option Key :=
  onlyOne (keys.filter fun k => !keyHasParent keys k)

/-! ## Decimal numerals

What a string denotes as a decimal numeral, stated without the loop and the overflow
checks of `strconv`, to compare `ParseInt` with. -/

/-- The ten decimal digits, each at the position of its value. -/
def decimalDigits : List Char := ['0', '1', '2', '3', '4', '5', '6', '7', '8', '9']

/-- Whether a character is a decimal digit. -/
def isDecimalDigit (c : Char) : Bool := decide (c ∈ decimalDigits)

/-- The number that the digits `ds` denote when they follow digits that denote `acc`. -/
def digitsFrom (acc : Nat) (ds : List Char) : Nat :=
  ds.foldl (fun a c => 10 * a + decimalDigits.indexOf c) acc

/-- The number a list of decimal digits denotes. -/
def natOfDigits (ds : List Char) : Nat := digitsFrom 0 ds

/-- Whether the string starts with a minus sign. -/
def hasMinus (s : String) : Bool :=
  match s.toList with
  | [] => false
  | c :: _ => decide (c = '-')

/-- The characters of the string after its sign, when it starts with one. -/
def unsignedPart (s : String) : List Char :=
  match s.toList with
  | [] => []
  | c :: rest => if c = '+' ∨ c = '-' then rest else c :: rest

/-- The digits the string starts with, after its sign. -/
def leadingDigits (s : String) : List Char := (unsignedPart s).takeWhile isDecimalDigit

/-- Whether the string is a decimal numeral: an optional sign, then one digit at least
and digits only. -/
def isNumeral (s : String) : Bool :=
  decide (unsignedPart s ≠ []) && (unsignedPart s).all isDecimalDigit

/-- The integer a decimal numeral denotes. -/
def numeralValue (s : String) : Int :=
  if hasMinus s then -(natOfDigits (unsignedPart s) : Int) else (natOfDigits (unsignedPart s) : Int)

/-- The result of `strconv.ParseInt(s, 10, 64)` as its documentation describes it: the
value of a numeral in range; the nearest bound of `int64` and `ErrRange` for a numeral
out of range; 0 and `ErrSyntax` for a string that is no numeral. The one addition is what
the loop of `ParseUint` does with digits that already exceed `uint64`: it stops there
with `ErrRange`, whatever follows them. -/
def parseIntSpec (s : String) : Int × Option NumError :=
  if natOfDigits (leadingDigits s) > maxUint64 then
    (if hasMinus s then minInt64 else maxInt64, some NumError.ErrRange)
  else if isNumeral s = false then (0, some NumError.ErrSyntax)
  else if numeralValue s > maxInt64 then (maxInt64, some NumError.ErrRange)
  else if numeralValue s < minInt64 then (minInt64, some NumError.ErrRange)
  else (numeralValue s, none)

/-- Whether a `Timestamp` or `Duration` value denotes an `int64`: it is a number, or a
string that is a decimal numeral of the signed 64-bit range. -/
def denotesInt64 (v : Iface) : Bool :=
  match v with
  | Iface.float64 _ => true
  | Iface.str s =>
    isNumeral s && decide (minInt64 ≤ numeralValue s) && decide (numeralValue s ≤ maxInt64)
  | _ => false

/-- A span whose Timestamp has digits beyond `uint64` and then a bad character. -/
def spanDigitsThenLetter : SpanV2 Unit :=
  { TraceID := 0, ID := 1, ParentID := none, Name := "", Endpoint := none, Tags := none,
    Kind := "", Timestamp := Iface.str "99999999999999999999x", Duration := Iface.str "5" }

/-- A span whose Timestamp is a decimal numeral below the smallest `int64`. -/
def spanTinyTimestamp : SpanV2 Unit :=
  { TraceID := 0, ID := 1, ParentID := none, Name := "", Endpoint := none, Tags := none,
    Kind := "", Timestamp := Iface.str "-9223372036854775809", Duration := Iface.str "5" }

/-- Whether a half is server-side for the merger: its annotations contain "sr". -/
def serverSide (s : Span) : Bool := hasAnnotation s.Annotations "sr"

/-- A caller half and a callee half: exactly one of the two is server-side. -/
abbrev complementary (a b : Span) : Prop := serverSide a ≠ serverSide b

/-- Two optional fields agree when one of them is unset or both hold one value. -/
abbrev agree (x y : Option Int) : Prop := x = none ∨ y = none ∨ x = y

/-- Two halves agree on the scalar fields that both of them set. -/
abbrev sameScalars (a b : Span) : Prop :=
  a.TraceID = b.TraceID ∧ a.Name = b.Name ∧ a.Debug = b.Debug ∧
  agree a.Timestamp b.Timestamp ∧ agree a.Duration b.Duration ∧
  agree a.TraceIDHigh b.TraceIDHigh

/-- The four spans of `TestCorrectTimings` in the order
`client, sharedClient, sharedServer, server`. -/
def testSpansListed : List Span := [0, 1, 2, 3].map (spanAt 100 200 1110 1190)

/-- The four spans of `TestCorrectTimings` in the order
`sharedServer, client, server, sharedClient`. -/
def testSpansMixed : List Span := [2, 0, 3, 1].map (spanAt 100 200 1110 1190)

/-- A caller half with a timestamp and a callee half without one, under the key
`(1, 2)`. -/
def callHalves : Span × Span :=
  ({ spanTagged ["cs", "cr"] ["caller"] with
      ID := 2, ParentID := some 1, Timestamp := some 100 },
   { spanTagged ["sr", "ss"] ["callee"] with ID := 2, ParentID := some 1 })

/-! # Theorems -/

/-! ## `strconv.ParseInt` reads back the decimal numeral of an `int64` -/

theorem digitOf_digitChar (m : Nat) (h : m < 10) : digitOf (Nat.digitChar m) = some m := by
  interval_cases m <;> decide

theorem digitChar_not_sign (m : Nat) (h : m < 10) :
    Nat.digitChar m ≠ '+' ∧ Nat.digitChar m ≠ '-' := by
  interval_cases m <;> decide

theorem digitsValue_ge (ms : List Nat) : ∀ acc, acc ≤ digitsValue acc ms := by
  induction ms with
  | nil => intro acc; exact Nat.le_refl _
  | cons m ms ih =>
    intro acc
    have := ih (acc * 10 + m)
    simp only [digitsValue, List.foldl_cons] at this ⊢
    omega

theorem parseUintLoop_digits (ms : List Nat) : ∀ acc, (∀ m ∈ ms, m < 10) →
    digitsValue acc ms < 2 ^ 64 →
    parseUintLoop (ms.map Nat.digitChar) acc = (digitsValue acc ms, none) := by
  induction ms with
  | nil => intro acc _ _; rfl
  | cons m ms ih =>
    intro acc hd hv
    have hm : m < 10 := hd m (List.mem_cons_self _ _)
    have hge := digitsValue_ge ms (acc * 10 + m)
    have hv2 : digitsValue (acc * 10 + m) ms < 2 ^ 64 := hv
    have hlt : acc * 10 + m < 2 ^ 64 := lt_of_le_of_lt hge hv2
    simp only [List.map_cons, parseUintLoop, digitOf_digitChar m hm]
    have h1 : ¬ (m ≥ 10) := by omega
    have h2 : ¬ (acc ≥ cutoff10) := by
      simp only [cutoff10, maxUint64]; omega
    have h3 : (acc * 10) % 2 ^ 64 = acc * 10 := Nat.mod_eq_of_lt (by omega)
    have h4 : (acc * 10 + m) % 2 ^ 64 = acc * 10 + m := Nat.mod_eq_of_lt hlt
    simp only [h1, h2, if_false, h3, h4]
    have h5 : ¬ (acc * 10 + m < acc * 10 ∨ acc * 10 + m > maxUint64) := by
      simp only [maxUint64]; omega
    simp only [h5, if_false]
    exact ih (acc * 10 + m) (fun x hx => hd x (List.mem_cons_of_mem _ hx)) hv2

theorem toDigitsCore_digits (fuel : Nat) : ∀ (n : Nat) (acc : List Char), n < fuel →
    ∃ ms : List Nat, ms ≠ [] ∧ (∀ m ∈ ms, m < 10) ∧ digitsValue 0 ms = n ∧
      Nat.toDigitsCore 10 fuel n acc = ms.map Nat.digitChar ++ acc := by
  induction fuel with
  | zero => intro n acc h; omega
  | succ fuel ih =>
    intro n acc hn
    by_cases h10 : n / 10 = 0
    · refine ⟨[n % 10], by simp, ?_, ?_, ?_⟩
      · intro m hm
        simp only [List.mem_singleton] at hm
        omega
      · simp only [digitsValue, List.foldl_cons, List.foldl_nil]
        omega
      · simp [Nat.toDigitsCore, h10]
    · obtain ⟨ms, hne, hd, hv, hc⟩ := ih (n / 10) (Nat.digitChar (n % 10) :: acc) (by omega)
      refine ⟨ms ++ [n % 10], by simp, ?_, ?_, ?_⟩
      · intro m hm
        rcases List.mem_append.mp hm with h | h
        · exact hd m h
        · simp only [List.mem_singleton] at h
          omega
      · simp only [digitsValue, List.foldl_append, List.foldl_cons, List.foldl_nil] at hv ⊢
        rw [hv]; omega
      · simp [Nat.toDigitsCore, h10, hc]

theorem repr_digits (n : Nat) :
    ∃ ms : List Nat, ms ≠ [] ∧ (∀ m ∈ ms, m < 10) ∧ digitsValue 0 ms = n ∧
      (Nat.repr n).toList = ms.map Nat.digitChar := by
  obtain ⟨ms, hne, hd, hv, hc⟩ := toDigitsCore_digits (n + 1) n [] (Nat.lt_succ_self n)
  refine ⟨ms, hne, hd, hv, ?_⟩
  simp only [Nat.repr, Nat.toDigits, hc, List.append_nil]
  rfl

theorem ParseUint_repr (n : Nat) (h : n < 2 ^ 64) :
    ParseUint (Nat.repr n).toList = (n, none) := by
  obtain ⟨ms, hne, hd, hv, hc⟩ := repr_digits n
  have hne2 : ms.map Nat.digitChar ≠ [] := by simpa using hne
  rw [hc, ParseUint, if_neg hne2, parseUintLoop_digits ms 0 hd (by rw [hv]; exact h), hv]

theorem repr_head (n : Nat) :
    ∃ c rest, (Nat.repr n).toList = c :: rest ∧ c ≠ '+' ∧ c ≠ '-' := by
  obtain ⟨ms, hne, hd, _, hc⟩ := repr_digits n
  cases ms with
  | nil => exact absurd rfl hne
  | cons m ms =>
    refine ⟨Nat.digitChar m, ms.map Nat.digitChar, by simpa using hc, ?_⟩
    exact digitChar_not_sign m (hd m (List.mem_cons_self _ _))

theorem toString_negSucc_toList (m : Nat) :
    (toString (Int.negSucc m)).toList = '-' :: (Nat.repr (m + 1)).toList := by
  rfl

theorem ParseInt_toString (t : Int) (h1 : minInt64 ≤ t) (h2 : t ≤ maxInt64) :
    ParseInt (toString t) = (t, none) := by
  simp only [minInt64, maxInt64] at h1 h2
  cases t with
  | ofNat m =>
    obtain ⟨c, rest, hc, hp, hm⟩ := repr_head m
    have hs : (toString (Int.ofNat m)).toList = c :: rest := hc
    have hu := ParseUint_repr m (by simp only [Int.ofNat_eq_coe] at h2; omega)
    rw [hc] at hu
    simp only [Int.ofNat_eq_coe] at h2
    have hlt : ¬ (m ≥ 2 ^ 63) := by omega
    have hw : wrapInt64 (m : Int) = m := by simp only [wrapInt64]; omega
    simp only [ParseInt, hs]
    simp [hp, hm, hu, hw]
    omega
  | negSucc m =>
    have hm : m + 1 ≤ 2 ^ 63 := by
      have := Int.negSucc_eq m
      omega
    have hu := ParseUint_repr (m + 1) (by omega)
    have hle : ¬ (m + 1 > 2 ^ 63) := by omega
    have hw : wrapInt64 (-wrapInt64 ((m + 1 : Nat) : Int)) = Int.negSucc m := by
      have := Int.negSucc_eq m
      simp only [wrapInt64]; omega
    simp only [ParseInt, toString_negSucc_toList]
    simp only [or_true, if_true, hu, true_and, not_true_eq_false, false_and, if_false,
      reduceCtorEq, hle, hw]

/-! ## The decoder -/

@[simp] theorem synthesizeTags_Timestamp {E : Type} (span : SpanV2 E) :
    (synthesizeTags span).Timestamp = span.Timestamp := by
  unfold synthesizeTags; split <;> rfl

@[simp] theorem synthesizeTags_Duration {E : Type} (span : SpanV2 E) :
    (synthesizeTags span).Duration = span.Duration := by
  unfold synthesizeTags; split <;> rfl

@[simp] theorem synthesizeTags_TraceID {E : Type} (span : SpanV2 E) :
    (synthesizeTags span).TraceID = span.TraceID := by
  unfold synthesizeTags; split <;> rfl

@[simp] theorem synthesizeTags_ID {E : Type} (span : SpanV2 E) :
    (synthesizeTags span).ID = span.ID := by
  unfold synthesizeTags; split <;> rfl

@[simp] theorem synthesizeTags_ParentID {E : Type} (span : SpanV2 E) :
    (synthesizeTags span).ParentID = span.ParentID := by
  unfold synthesizeTags; split <;> rfl

@[simp] theorem synthesizeTags_Name {E : Type} (span : SpanV2 E) :
    (synthesizeTags span).Name = span.Name := by
  unfold synthesizeTags; split <;> rfl

/-- The returned span in terms of the two type switches. -/
theorem ToZipkincoreSpan_snd {E : Type} (ro : RangeOrder)
    (e2z : Option E → Option Endpoint) (span : SpanV2 E) :
    (ToZipkincoreSpan ro e2z span).2 =
      match (switchDuration span.Duration (switchTimestamp span.Timestamp).2).2 with
      | some _ => none
      | none => some
        { TraceID := span.TraceID
          ID := span.ID
          Name := cacheString span.Name
          ParentID := if span.TraceID = span.ID then none else span.ParentID
          Annotations := []
          BinaryAnnotations := tagAnnotations ro (e2z span.Endpoint) (synthesizeTags span).Tags
          Debug := false
          Timestamp := some (switchTimestamp span.Timestamp).1
          Duration := some (switchDuration span.Duration (switchTimestamp span.Timestamp).2).1
          TraceIDHigh := none } := by
  simp only [ToZipkincoreSpan, synthesizeTags_Timestamp, synthesizeTags_Duration,
    synthesizeTags_TraceID, synthesizeTags_ID, synthesizeTags_ParentID, synthesizeTags_Name]
  split <;> simp_all

/-- Decimal strings of `int64` values decode to exactly these values. -/
theorem decode_strings_exact {E : Type} (ro : RangeOrder) (e2z : Option E → Option Endpoint)
    (span : SpanV2 E) (t d : Int)
    (ht : minInt64 ≤ t ∧ t ≤ maxInt64) (hd : minInt64 ≤ d ∧ d ≤ maxInt64)
    (hT : span.Timestamp = Iface.str (toString t))
    (hD : span.Duration = Iface.str (toString d)) :
    ∃ sp, (ToZipkincoreSpan ro e2z span).2 = some sp ∧
      sp.Timestamp = some t ∧ sp.Duration = some d := by
  rw [ToZipkincoreSpan_snd, hT, hD]
  simp [switchTimestamp, switchDuration, ParseInt_toString t ht.1 ht.2,
    ParseInt_toString d hd.1 hd.2]

/-- C1: when Timestamp and Duration are strings holding the decimal numerals of integers
`t` and `d` of the signed 64-bit range, `ToZipkincoreSpan` returns a span whose Timestamp
is exactly `t` and whose Duration is exactly `d`. -/
theorem C1_string_timing_exact {E : Type} (ro : RangeOrder) (e2z : Option E → Option Endpoint)
    (span : SpanV2 E) (t d : Int)
    (ht : minInt64 ≤ t ∧ t ≤ maxInt64) (hd : minInt64 ≤ d ∧ d ≤ maxInt64)
    (hT : span.Timestamp = Iface.str (toString t))
    (hD : span.Duration = Iface.str (toString d)) :
    ∃ sp, (ToZipkincoreSpan ro e2z span).2 = some sp ∧
      sp.Timestamp = some t ∧ sp.Duration = some d :=
  decode_strings_exact ro e2z span t d ht hd hT hD

/-- The span of `TestSpanV2TimigAndDurationAsString` decodes to the two integers of its
strings. -/
theorem C1_string_timing_exact_witness :
    (minInt64 ≤ 1234567890123456 ∧ (1234567890123456 : Int) ≤ maxInt64) ∧
    (minInt64 ≤ 1234567890123457 ∧ (1234567890123457 : Int) ≤ maxInt64) ∧
    testSpanString.Timestamp = Iface.str (toString (1234567890123456 : Int)) ∧
    testSpanString.Duration = Iface.str (toString (1234567890123457 : Int)) ∧
    ∃ sp, (ToZipkincoreSpan RangeOrder.listed noEndpoint testSpanString).2 = some sp ∧
      sp.Timestamp = some 1234567890123456 ∧ sp.Duration = some 1234567890123457 :=
  ⟨by decide, by decide, by decide, by decide,
    C1_string_timing_exact RangeOrder.listed noEndpoint testSpanString
      1234567890123456 1234567890123457 (by decide) (by decide) (by decide) (by decide)⟩

/-- C2, the code at a failing input: Timestamp is the string "abc" and Duration the
string "5". The error of the first switch is overwritten by the second one, and a span
with Timestamp 0 and Duration 5 is returned instead of nil. -/
theorem C2_bad_timestamp_returns_span :
    isIntegerEncoding spanBadTimestamp.Timestamp = false ∧
    (switchTimestamp spanBadTimestamp.Timestamp).2 = some (DecodeError.num NumError.ErrSyntax) ∧
    (ToZipkincoreSpan RangeOrder.listed noEndpoint spanBadTimestamp).2 =
      some spanBadTimestampOut ∧
    spanBadTimestampOut.Timestamp = some 0 ∧ spanBadTimestampOut.Duration = some 5 := by
  decide

/-- C3: when Duration is neither a number nor a string that parses as a base-10 signed
64-bit integer, `ToZipkincoreSpan` returns nil, whatever Timestamp is. -/
theorem C3_bad_duration_nil {E : Type} (ro : RangeOrder) (e2z : Option E → Option Endpoint)
    (span : SpanV2 E) (hD : isIntegerEncoding span.Duration = false) :
    (ToZipkincoreSpan ro e2z span).2 = none := by
  rw [ToZipkincoreSpan_snd]
  cases h : span.Duration with
  | nil => simp [switchDuration]
  | bool b => simp [switchDuration]
  | other n => simp [switchDuration]
  | float64 f => simp [isIntegerEncoding, h] at hD
  | str s =>
    simp only [isIntegerEncoding, h] at hD
    cases hp : (ParseInt s).2 with
    | none => simp [hp] at hD
    | some e => simp [switchDuration, hp]

/-- A span with a boolean Duration is dropped. -/
theorem C3_bad_duration_nil_witness :
    isIntegerEncoding spanBadDuration.Duration = false ∧
    (ToZipkincoreSpan RangeOrder.listed noEndpoint spanBadDuration).2 = none :=
  ⟨by decide, C3_bad_duration_nil RangeOrder.listed noEndpoint spanBadDuration (by decide)⟩

/-- C6: when a span decodes successfully and its TraceID equals its ID, the returned
span has no ParentID, even when the input carries one. -/
theorem C6_root_parent_discarded {E : Type} (ro : RangeOrder)
    (e2z : Option E → Option Endpoint) (span : SpanV2 E) (sp : Span)
    (hok : (ToZipkincoreSpan ro e2z span).2 = some sp) (hroot : span.TraceID = span.ID) :
    sp.ParentID = none := by
  rw [ToZipkincoreSpan_snd] at hok
  split at hok
  · exact absurd hok (by simp)
  · simp only [Option.some.injEq] at hok
    rw [← hok]
    simp [hroot]

/-- A root span that carries the parent id 3 decodes to a span without parent. -/
theorem C6_root_parent_discarded_witness :
    (ToZipkincoreSpan RangeOrder.listed noEndpoint spanRootWithParent).2 =
      some spanRootWithParentOut ∧
    spanRootWithParent.TraceID = spanRootWithParent.ID ∧
    spanRootWithParent.ParentID = some 3 ∧
    spanRootWithParentOut.ParentID = none :=
  ⟨by decide, by decide, by decide,
    C6_root_parent_discarded RangeOrder.listed noEndpoint spanRootWithParent
      spanRootWithParentOut (by decide) (by decide)⟩

/-- C7: when a span without tags (the map nil or empty) decodes successfully, the
returned span has exactly one binary annotation: key "dd.name", value the bytes of the
span's own Name, type STRING, on the span's converted endpoint. -/
theorem C7_name_tag_synthesized {E : Type} (ro : RangeOrder)
    (e2z : Option E → Option Endpoint) (span : SpanV2 E) (sp : Span)
    (hok : (ToZipkincoreSpan ro e2z span).2 = some sp) (hno : mapLen span.Tags = 0) :
    sp.BinaryAnnotations =
      [{ Key := "dd.name", Value := toBytesCached span.Name,
         AnnotationType := AnnotationType.STRING, Host := e2z span.Endpoint }] := by
  rw [ToZipkincoreSpan_snd] at hok
  split at hok
  · exact absurd hok (by simp)
  · simp only [Option.some.injEq] at hok
    rw [← hok]
    have hp := ro.perm [("dd.name", span.Name)]
    rw [List.perm_singleton] at hp
    simp [tagAnnotations, synthesizeTags, hno, hp, cacheString]

/-- A span named "/" with an empty tag map decodes to a span with the one tag
"dd.name" holding the byte of "/". -/
theorem C7_name_tag_synthesized_witness :
    (ToZipkincoreSpan RangeOrder.listed noEndpoint spanEmptyTags).2 = some spanEmptyTagsOut ∧
    mapLen spanEmptyTags.Tags = 0 ∧
    spanEmptyTagsOut.BinaryAnnotations =
      [{ Key := "dd.name", Value := toBytesCached spanEmptyTags.Name,
         AnnotationType := AnnotationType.STRING, Host := noEndpoint spanEmptyTags.Endpoint }] :=
  ⟨by decide, by decide,
    C7_name_tag_synthesized RangeOrder.listed noEndpoint spanEmptyTags spanEmptyTagsOut
      (by decide) (by decide)⟩


/-! ## Numbers -/

/-- The magnitude computed by `Float64.toInt64` is the floor of `mant * 2^exp`. -/
theorem floor_mant_exp (m : Nat) (e : Int) :
    ⌊(m : ℚ) * (2 : ℚ) ^ e⌋ =
      ((if 0 ≤ e then m * 2 ^ e.toNat else m / 2 ^ (-e).toNat : Nat) : Int) := by
  by_cases he : 0 ≤ e
  · rw [if_pos he]
    have h2 : (2 : ℚ) ^ e = ((2 ^ e.toNat : Nat) : ℚ) := by
      conv_lhs => rw [← Int.toNat_of_nonneg he]
      rw [zpow_natCast]; push_cast; rfl
    rw [h2, ← Nat.cast_mul, Int.floor_natCast]
  · rw [if_neg he]
    have hn : 0 ≤ -e := by omega
    have h2 : (2 : ℚ) ^ e = (((2 ^ (-e).toNat : Nat) : ℚ))⁻¹ := by
      have : e = -(((-e).toNat : Int)) := by rw [Int.toNat_of_nonneg hn]; ring
      conv_lhs => rw [this]
      rw [zpow_neg, zpow_natCast]; push_cast; rfl
    rw [h2, ← div_eq_mul_inv, Rat.floor_natCast_div_natCast]
    norm_cast

/-- In range, `int64(f)` is the value of `f` truncated toward zero. -/
theorem Float64.toInt64_eq_trunc (x : Float64) (hf : x.isFinite = true)
    (hlo : (minInt64 : ℚ) - 1 < x.toRat) (hhi : x.toRat < (maxInt64 : ℚ) + 1) :
    x.toInt64 = truncTowardZero x.toRat := by
  cases x with
  | inf n => simp [Float64.isFinite] at hf
  | nan => simp [Float64.isFinite] at hf
  | finite neg m e =>
    have hfl := floor_mant_exp m e
    have hp : (0 : ℚ) ≤ (m : ℚ) * (2 : ℚ) ^ e := by positivity
    have key : (if neg then -((if 0 ≤ e then m * 2 ^ e.toNat else m / 2 ^ (-e).toNat : Nat) : Int)
        else ((if 0 ≤ e then m * 2 ^ e.toNat else m / 2 ^ (-e).toNat : Nat) : Int)) =
        truncTowardZero (Float64.finite neg m e).toRat := by
      rw [← hfl]
      cases neg with
      | false =>
        have hv : (Float64.finite false m e).toRat = (m : ℚ) * (2 : ℚ) ^ e := by
          simp [Float64.toRat]
        rw [hv, truncTowardZero, if_pos hp]
        simp
      | true =>
        have hv : (Float64.finite true m e).toRat = -((m : ℚ) * (2 : ℚ) ^ e) := by
          simp [Float64.toRat]
        rw [hv, truncTowardZero]
        by_cases h0 : (0 : ℚ) ≤ -((m : ℚ) * (2 : ℚ) ^ e)
        · have hz : (m : ℚ) * (2 : ℚ) ^ e = 0 := le_antisymm (by linarith) hp
          rw [if_pos h0, hz]; simp
        · rw [if_neg h0, Int.ceil_neg]; simp
    have hrange : minInt64 ≤ truncTowardZero (Float64.finite neg m e).toRat ∧
        truncTowardZero (Float64.finite neg m e).toRat ≤ maxInt64 := by
      unfold truncTowardZero
      split
      · rename_i h0
        constructor
        · have : (0 : Int) ≤ ⌊(Float64.finite neg m e).toRat⌋ := Int.floor_nonneg.mpr h0
          simp only [minInt64]; omega
        · have : ⌊(Float64.finite neg m e).toRat⌋ < maxInt64 + 1 := by
            rw [Int.floor_lt]; push_cast; exact hhi
          omega
      · rename_i h0
        constructor
        · have : minInt64 - 1 < ⌈(Float64.finite neg m e).toRat⌉ := by
            rw [Int.lt_ceil]; push_cast; exact hlo
          omega
        · have : ⌈(Float64.finite neg m e).toRat⌉ ≤ 0 := by
            rw [Int.ceil_le]; push_cast; linarith
          simp only [maxInt64]; omega
    simp only [Float64.toInt64]
    rw [key, if_pos hrange]

/-- Truncation leaves an integer unchanged. -/
theorem truncTowardZero_intCast (n : Int) : truncTowardZero (n : ℚ) = n := by
  simp [truncTowardZero]

/-- Finite numbers in range decode to their truncation toward zero. -/
theorem decode_numbers_trunc {E : Type} (ro : RangeOrder)
    (e2z : Option E → Option Endpoint) (span : SpanV2 E) (x y : Float64)
    (hT : span.Timestamp = Iface.float64 x) (hD : span.Duration = Iface.float64 y)
    (hx : x.isFinite = true ∧ (minInt64 : ℚ) - 1 < x.toRat ∧ x.toRat < (maxInt64 : ℚ) + 1)
    (hy : y.isFinite = true ∧ (minInt64 : ℚ) - 1 < y.toRat ∧ y.toRat < (maxInt64 : ℚ) + 1) :
    ∃ sp, (ToZipkincoreSpan ro e2z span).2 = some sp ∧
      sp.Timestamp = some (truncTowardZero x.toRat) ∧
      sp.Duration = some (truncTowardZero y.toRat) ∧
      (∀ n : Int, x.toRat = n → sp.Timestamp = some n) ∧
      (∀ n : Int, y.toRat = n → sp.Duration = some n) := by
  rw [ToZipkincoreSpan_snd, hT, hD]
  refine ⟨_, rfl, ?_, ?_, ?_, ?_⟩
  · simp [switchTimestamp, Float64.toInt64_eq_trunc x hx.1 hx.2.1 hx.2.2]
  · simp [switchDuration, Float64.toInt64_eq_trunc y hy.1 hy.2.1 hy.2.2]
  · intro n hn
    simp [switchTimestamp, Float64.toInt64_eq_trunc x hx.1 hx.2.1 hx.2.2, hn,
      truncTowardZero_intCast]
  · intro n hn
    simp [switchDuration, Float64.toInt64_eq_trunc y hy.1 hy.2.1 hy.2.2, hn,
      truncTowardZero_intCast]

/-- C5: when Timestamp and Duration are finite numbers `x` and `y` whose truncations
fit the signed 64-bit range, `ToZipkincoreSpan` returns a span whose Timestamp is `x`
truncated toward zero and whose Duration is `y` truncated toward zero; an integer-valued
number decodes to exactly that integer. -/
theorem C5_number_timing_truncated {E : Type} (ro : RangeOrder)
    (e2z : Option E → Option Endpoint) (span : SpanV2 E) (x y : Float64)
    (hT : span.Timestamp = Iface.float64 x) (hD : span.Duration = Iface.float64 y)
    (hx : x.isFinite = true ∧ (minInt64 : ℚ) - 1 < x.toRat ∧ x.toRat < (maxInt64 : ℚ) + 1)
    (hy : y.isFinite = true ∧ (minInt64 : ℚ) - 1 < y.toRat ∧ y.toRat < (maxInt64 : ℚ) + 1) :
    ∃ sp, (ToZipkincoreSpan ro e2z span).2 = some sp ∧
      sp.Timestamp = some (truncTowardZero x.toRat) ∧
      sp.Duration = some (truncTowardZero y.toRat) ∧
      (∀ n : Int, x.toRat = n → sp.Timestamp = some n) ∧
      (∀ n : Int, y.toRat = n → sp.Duration = some n) :=
  decode_numbers_trunc ro e2z span x y hT hD hx hy

/-- The timestamp of `TestSpanV2TimigAndDurationAsNumber` and the fractional duration
`-1456809.5` decode to their truncations. -/
theorem C5_number_timing_truncated_witness :
    testSpanNumber.Timestamp = Iface.float64 (Float64.finite false 1544326139547000 0) ∧
    testSpanNumber.Duration = Iface.float64 (Float64.finite true 2913619 (-1)) ∧
    (Float64.finite true 2913619 (-1)).toRat = -(2913619 / 2) ∧
    ∃ sp, (ToZipkincoreSpan RangeOrder.listed noEndpoint testSpanNumber).2 = some sp ∧
      sp.Timestamp = some (truncTowardZero (Float64.finite false 1544326139547000 0).toRat) ∧
      sp.Duration = some (truncTowardZero (Float64.finite true 2913619 (-1)).toRat) ∧
      (∀ n : Int, (Float64.finite false 1544326139547000 0).toRat = n → sp.Timestamp = some n) ∧
      (∀ n : Int, (Float64.finite true 2913619 (-1)).toRat = n → sp.Duration = some n) :=
  ⟨rfl, rfl, by norm_num [Float64.toRat],
    C5_number_timing_truncated RangeOrder.listed noEndpoint testSpanNumber
      (Float64.finite false 1544326139547000 0) (Float64.finite true 2913619 (-1)) rfl rfl
      ⟨rfl, by norm_num [Float64.toRat, minInt64], by norm_num [Float64.toRat, maxInt64]⟩
      ⟨rfl, by norm_num [Float64.toRat, minInt64], by norm_num [Float64.toRat, maxInt64]⟩⟩


/-- The value `float64OfInt` produces is finite. -/
theorem float64OfInt_isFinite (n : Int) : (float64OfInt n).isFinite = true := by
  unfold float64OfInt
  simp only
  repeat (first | rfl | split)

/-- An integer below `2^53` in magnitude is a `float64`. -/
theorem float64OfInt_exact_of_small (n : Int) (h : n.natAbs < 2 ^ 53) :
    (float64OfInt n).toRat = n := by
  unfold float64OfInt
  simp only [h, if_true, Float64.toRat, zpow_zero, mul_one]
  by_cases hn : n < 0
  · simp only [hn, decide_True, if_true]
    have h1 : (n.natAbs : Int) = -n := by omega
    have h2 : (((n.natAbs : Nat) : Int) : ℚ) = ((-n : Int) : ℚ) := congrArg _ h1
    rw [Int.cast_natCast, Int.cast_neg] at h2
    linarith
  · simp only [hn, decide_False, Bool.false_eq_true, if_false, one_mul]
    have h1 : (n.natAbs : Int) = n := by omega
    have h2 : (((n.natAbs : Nat) : Int) : ℚ) = (n : ℚ) := congrArg _ h1
    rw [Int.cast_natCast] at h2
    exact h2

/-- C4, a counterexample: the quoted string of `2^53 + 1` decodes to `2^53 + 1`, the bare
number, which reaches the decoder as the `float64` `2^53`, decodes to `2^53`. -/
theorem C4_counterexample :
    minInt64 ≤ 9007199254740993 ∧ (9007199254740993 : Int) ≤ maxInt64 ∧
    decodeQuoted RangeOrder.listed noEndpoint testSpanString 9007199254740993 =
      some (some 9007199254740993, some 9007199254740993) ∧
    decodeBare RangeOrder.listed noEndpoint testSpanString 9007199254740993 =
      some (some 9007199254740992, some 9007199254740992) ∧
    decodeQuoted RangeOrder.listed noEndpoint testSpanString 9007199254740993 ≠
      decodeBare RangeOrder.listed noEndpoint testSpanString 9007199254740993 := by
  decide

/-- C4, amended: for every integer `n` of the signed 64-bit range that a `float64` holds
exactly, the quoted decimal string of `n` and the bare number `n` decode to the same
Timestamp and Duration, both equal to `n`. -/
theorem C4_string_number_agree {E : Type} (ro : RangeOrder)
    (e2z : Option E → Option Endpoint) (span : SpanV2 E) (n : Int)
    (hn : minInt64 ≤ n ∧ n ≤ maxInt64) (hexact : (float64OfInt n).toRat = n) :
    decodeQuoted ro e2z span n = decodeBare ro e2z span n ∧
      decodeBare ro e2z span n = some (some n, some n) := by
  have hq : decodeQuoted ro e2z span n = some (some n, some n) := by
    obtain ⟨sp, h1, h2, h3⟩ := decode_strings_exact ro e2z
      (withTiming span (Iface.str (toString n))) n n hn hn rfl rfl
    simp [decodeQuoted, timingOf, h1, h2, h3]
  have hlo : (minInt64 : ℚ) - 1 < (float64OfInt n).toRat := by
    rw [hexact]
    have : ((minInt64 : Int) : ℚ) ≤ (n : ℚ) := by exact_mod_cast hn.1
    linarith
  have hhi : (float64OfInt n).toRat < (maxInt64 : ℚ) + 1 := by
    rw [hexact]
    have : (n : ℚ) ≤ ((maxInt64 : Int) : ℚ) := by exact_mod_cast hn.2
    linarith
  have hb : decodeBare ro e2z span n = some (some n, some n) := by
    obtain ⟨sp, h1, _, _, h4, h5⟩ := decode_numbers_trunc ro e2z
      (withTiming span (Iface.float64 (float64OfInt n))) (float64OfInt n) (float64OfInt n)
      rfl rfl ⟨float64OfInt_isFinite n, hlo, hhi⟩ ⟨float64OfInt_isFinite n, hlo, hhi⟩
    simp [decodeBare, timingOf, h1, h4 n hexact, h5 n hexact]
  exact ⟨hq.trans hb.symm, hb⟩

/-- The integer `2^60`, above `2^53` and held exactly by a `float64`, decodes to itself
from both encodings. -/
theorem C4_string_number_agree_witness :
    (minInt64 ≤ 1152921504606846976 ∧ (1152921504606846976 : Int) ≤ maxInt64) ∧
    (2 : Int) ^ 53 < 1152921504606846976 ∧
    (float64OfInt 1152921504606846976).toRat = (1152921504606846976 : Int) ∧
    decodeQuoted RangeOrder.listed noEndpoint testSpanString 1152921504606846976 =
      decodeBare RangeOrder.listed noEndpoint testSpanString 1152921504606846976 ∧
    decodeBare RangeOrder.listed noEndpoint testSpanString 1152921504606846976 =
      some (some 1152921504606846976, some 1152921504606846976) :=
  ⟨by decide, by decide,
    by rw [show float64OfInt 1152921504606846976 = Float64.finite false (2 ^ 52) 8 by decide]
       norm_num [Float64.toRat],
    C4_string_number_agree RangeOrder.listed noEndpoint testSpanString 1152921504606846976
      (by decide)
      (by rw [show float64OfInt 1152921504606846976 = Float64.finite false (2 ^ 52) 8 by decide]
          norm_num [Float64.toRat])⟩

/-! ## The merger -/

/-- The test of the merger for a server-side half, as a proposition. -/
theorem hasAnnotation_iff (as : List Annotation) (v : String) :
    hasAnnotation as v = true ↔ ∃ a ∈ as, a.Value = v := by
  simp [ hasAnnotation]

/-- C8: after `mergeSpansInPlace(first, second)` the annotations of `first` are those of
`second` followed by its own when the annotations of `second` contain "sr", and its own
followed by those of `second` otherwise; so `[first]` merged with `[second]` gives
`[first, second]`, and `[first]` merged with `[second, sr]` gives `[second, sr, first]`. -/
theorem C8_merge_annotation_order (first second : Span) :
    (mergeSpansInPlace first second).Annotations =
      (if ∃ a ∈ second.Annotations, a.Value = "sr" then
        second.Annotations ++ first.Annotations
      else first.Annotations ++ second.Annotations) ∧
    (mergeSpansInPlace (spanAnnotated ["first"]) (spanAnnotated ["second"])).Annotations =
      (spanAnnotated ["first", "second"]).Annotations ∧
    (mergeSpansInPlace (spanAnnotated ["first"]) (spanAnnotated ["second", "sr"])).Annotations =
      (spanAnnotated ["second", "sr", "first"]).Annotations := by
  refine ⟨?_, by decide, by decide⟩
  by_cases h : ∃ a ∈ second.Annotations, a.Value = "sr"
  · rw [if_pos h]
    simp [mergeSpansInPlace, (hasAnnotation_iff _ _).mpr h]
  · rw [if_neg h]
    have hb : hasAnnotation second.Annotations "sr" = false := by
      rw [← Bool.not_eq_true, hasAnnotation_iff]; exact h
    simp [mergeSpansInPlace, hb]

/-- C9: after `mergeSpansInPlace(first, second)` the tags of `first` are those of `second`
followed by its own when the annotations of `second` contain "sr", and its own followed
by those of `second` otherwise. The annotations of `first` play no part: when only
`first` carries "sr" the order is the tags of `first`, then those of `second`. -/
theorem C9_merge_tag_order (first second : Span) :
    (mergeSpansInPlace first second).BinaryAnnotations =
      (if ∃ a ∈ second.Annotations, a.Value = "sr" then
        second.BinaryAnnotations ++ first.BinaryAnnotations
      else first.BinaryAnnotations ++ second.BinaryAnnotations) ∧
    (mergeSpansInPlace (spanTagged ["sr"] ["first"]) (spanTagged [] ["second"])).BinaryAnnotations
      = (spanTagged [] ["first", "second"]).BinaryAnnotations ∧
    (mergeSpansInPlace (spanTagged [] ["first"]) (spanTagged ["sr"] ["second"])).BinaryAnnotations
      = (spanTagged [] ["second", "first"]).BinaryAnnotations := by
  refine ⟨?_, by decide, by decide⟩
  by_cases h : ∃ a ∈ second.Annotations, a.Value = "sr"
  · rw [if_pos h]
    simp [mergeSpansInPlace, (hasAnnotation_iff _ _).mpr h]
  · rw [if_neg h]
    have hb : hasAnnotation second.Annotations "sr" = false := by
      rw [← Bool.not_eq_true, hasAnnotation_iff]; exact h
    simp [mergeSpansInPlace, hb]

/-! ## The corrector on the tree of `TestCorrectTimings` -/

theorem insertion_orders_aux : ∀ a b c d : Fin 4, [a, b, c, d].Perm [0, 1, 2, 3] →
    [a, b, c, d] ∈ insertionOrders := by
  decide

/-- Every order of inserting the four spans is one of the 24 listed ones. -/
theorem insertion_orders (indices : List (Fin 4)) (h : indices.Perm [0, 1, 2, 3]) :
    indices ∈ insertionOrders := by
  have hl := h.length_eq
  match indices, hl, h with
  | [a, b, c, d], _, h => exact insertion_orders_aux a b c d h

/-- Sums of `int64` values do not depend on the order of the operands. -/
theorem add64_comm (a b : Int) : add64 a b = add64 b a := by
  simp only [add64, wrapInt64]; omega

/-- Adding 0 to an `int64` sum and then `b` is adding `b`. -/
theorem add64_zero_add (a b : Int) : add64 (add64 a 0) b = add64 b a := by
  simp only [add64, wrapInt64]; omega

/-- Subtracting and then adding is adding and then subtracting, on `int64` as well. -/
theorem add64_sub64 (a d b : Int) : add64 (sub64 a d) b = sub64 (add64 b a) d := by
  simp only [add64, sub64, wrapInt64]; omega

/-- An `int64` operation whose exact result is an `int64` value gives that value. -/
theorem wrapInt64_of_isInt64 (x : Int) (h : isInt64 x) : wrapInt64 x = x := by
  simp only [isInt64, minInt64, maxInt64] at h
  simp only [wrapInt64]; omega

/-- The corrector on a tree that holds a root `c` without the four annotations, a merge
point `m` below it and a span `s` without the four annotations below `m`, whatever the
order of the entries. -/
theorem corrected_arrangement (c m s : Span) (cs cr sr ss B : Int)
    (nodes : List (Key × Span))
    (hn : nodes ∈ threeNodes c m s)
    (hc : c.ID = 1 ∧ c.ParentID = none ∧ c.Timestamp = some cs ∧ mergePoint c = none)
    (hm : m.ID = 2 ∧ m.ParentID = some 1 ∧ mergePoint m = some (cs, cr, sr, ss))
    (hs : s.ID = 3 ∧ s.ParentID = some 2 ∧ s.Timestamp = some sr ∧ mergePoint s = none) :
    correctedAt (correctTreeTimings ⟨nodes⟩ c B) none 1 = some (add64 B cs) ∧
    correctedAt (correctTreeTimings ⟨nodes⟩ c B) (some 1) 2 = some (add64 B cs) ∧
    correctedAt (correctTreeTimings ⟨nodes⟩ c B) (some 2) 3 =
      some (sub64 (add64 B sr) (Int.tdiv (add64 (sub64 sr cs) (sub64 ss cr)) 2)) := by
  obtain ⟨hc1, hc2, hc3, hc4⟩ := hc
  obtain ⟨hm1, hm2, hm3⟩ := hm
  obtain ⟨hs1, hs2, hs3, hs4⟩ := hs
  simp only [threeNodes, List.mem_cons, List.mem_singleton, List.not_mem_nil, or_false] at hn
  rcases hn with rfl | rfl | rfl | rfl | rfl | rfl <;>
  · simp [correctTreeTimings, Tree.Root, Tree.hasParent, Tree.childKeys, keyOf,
      Tree.setTimestamp, correctSubtree, Tree.GetSpan, subtreeSkew, correctedTimestamp,
      correctedAt, hc1, hc2, hc3, hc4, hm1, hm2, hm3, hs1, hs2, hs3, hs4]
    exact ⟨add64_comm _ _, add64_zero_add _ _, add64_sub64 _ _ _⟩

set_option maxHeartbeats 1000000 in
/-- Whatever the order of insertion, the tree of `TestCorrectTimings` holds the client,
the server span and one merged span that carries the four annotations. -/
theorem treeOf_arrangement (cs cr sr ss : Int) (indices : List (Fin 4))
    (h : indices ∈ insertionOrders) :
    ∃ m, (treeOf cs cr sr ss indices).nodes ∈
        threeNodes (threeSpans cs cr sr ss).1 m (threeSpans cs cr sr ss).2.2.2 ∧
      m.ID = 2 ∧ m.ParentID = some 1 ∧ mergePoint m = some (cs, cr, sr, ss) := by
  simp only [insertionOrders, List.mem_cons, List.mem_singleton, List.not_mem_nil, or_false] at h
  rcases h with rfl | rfl | rfl | rfl | rfl | rfl | rfl | rfl | rfl | rfl | rfl | rfl | rfl | rfl | rfl | rfl | rfl | rfl | rfl | rfl | rfl | rfl | rfl | rfl <;>
  first
  | exact ⟨_, List.mem_cons_self _ _, rfl, rfl, rfl⟩
  | exact ⟨_, List.mem_cons_of_mem _ (List.mem_cons_self _ _), rfl, rfl, rfl⟩
  | exact ⟨_, List.mem_cons_of_mem _ (List.mem_cons_of_mem _ (List.mem_cons_self _ _)),
      rfl, rfl, rfl⟩
  | exact ⟨_, List.mem_cons_of_mem _ (List.mem_cons_of_mem _ (List.mem_cons_of_mem _
      (List.mem_cons_self _ _))), rfl, rfl, rfl⟩
  | exact ⟨_, List.mem_cons_of_mem _ (List.mem_cons_of_mem _ (List.mem_cons_of_mem _
      (List.mem_cons_of_mem _ (List.mem_cons_self _ _)))), rfl, rfl, rfl⟩
  | exact ⟨_, List.mem_cons_of_mem _ (List.mem_cons_of_mem _ (List.mem_cons_of_mem _
      (List.mem_cons_of_mem _ (List.mem_cons_of_mem _ (List.mem_cons_self _ _))))),
      rfl, rfl, rfl⟩

/-- C10: for all `int64` values `cs`, `cr`, `sr`, `ss`, every `int64` base offset `B` and
every order of inserting the four spans of `threeSpans(cs, cr, sr, ss)` into a new tree,
after `correctTreeTimings(tree, client, B)` the timestamp of the client is `B + cs`, that
of the merged span found by `GetSpan(1, 2)` is `B + cs`, and that of the server span is
`B + sr - delta` with `delta = ((sr - cs) + (ss - cr)) / 2`, all computed on `int64` with
the truncating division of Go. Whenever the exact values are `int64` values, the
timestamps are these exact values; for 100, 200, 1110, 1190 they are `B + 100`, `B + 100`
and `B + 110`. -/
theorem C10_corrected_timings (cs cr sr ss B : Int) (indices : List (Fin 4))
    (h : indices.Perm [0, 1, 2, 3])
    (hin : isInt64 cs ∧ isInt64 cr ∧ isInt64 sr ∧ isInt64 ss ∧ isInt64 B) :
    (correctedAt (correctedTree cs cr sr ss B indices) none 1 = some (add64 B cs) ∧
     correctedAt (correctedTree cs cr sr ss B indices) (some 1) 2 = some (add64 B cs) ∧
     correctedAt (correctedTree cs cr sr ss B indices) (some 2) 3 =
       some (sub64 (add64 B sr) (Int.tdiv (add64 (sub64 sr cs) (sub64 ss cr)) 2))) ∧
    (isInt64 (B + cs) →
      correctedAt (correctedTree cs cr sr ss B indices) none 1 = some (B + cs) ∧
      correctedAt (correctedTree cs cr sr ss B indices) (some 1) 2 = some (B + cs)) ∧
    (isInt64 ((sr - cs) + (ss - cr)) →
      isInt64 (B + sr - Int.tdiv ((sr - cs) + (ss - cr)) 2) →
      correctedAt (correctedTree cs cr sr ss B indices) (some 2) 3 =
        some (B + sr - Int.tdiv ((sr - cs) + (ss - cr)) 2)) ∧
    (isInt64 (B + 100) → isInt64 (B + 110) →
      correctedAt (correctedTree 100 200 1110 1190 B indices) none 1 = some (B + 100) ∧
      correctedAt (correctedTree 100 200 1110 1190 B indices) (some 1) 2 = some (B + 100) ∧
      correctedAt (correctedTree 100 200 1110 1190 B indices) (some 2) 3 = some (B + 110)) := by
  have key : ∀ cs cr sr ss : Int,
      correctedAt (correctedTree cs cr sr ss B indices) none 1 = some (add64 B cs) ∧
      correctedAt (correctedTree cs cr sr ss B indices) (some 1) 2 = some (add64 B cs) ∧
      correctedAt (correctedTree cs cr sr ss B indices) (some 2) 3 =
        some (sub64 (add64 B sr) (Int.tdiv (add64 (sub64 sr cs) (sub64 ss cr)) 2)) := by
    intro cs cr sr ss
    obtain ⟨m, hmem, hm1, hm2, hm3⟩ :=
      treeOf_arrangement cs cr sr ss indices (insertion_orders indices h)
    exact corrected_arrangement (threeSpans cs cr sr ss).1 m (threeSpans cs cr sr ss).2.2.2
      cs cr sr ss B (treeOf cs cr sr ss indices).nodes hmem ⟨rfl, rfl, rfl, rfl⟩
      ⟨hm1, hm2, hm3⟩ ⟨rfl, rfl, rfl, rfl⟩
  have exact_server : ∀ cs cr sr ss : Int, isInt64 ((sr - cs) + (ss - cr)) →
      isInt64 (B + sr - Int.tdiv ((sr - cs) + (ss - cr)) 2) →
      sub64 (add64 B sr) (Int.tdiv (add64 (sub64 sr cs) (sub64 ss cr)) 2) =
        B + sr - Int.tdiv ((sr - cs) + (ss - cr)) 2 := by
    intro cs cr sr ss h1 h2
    have e1 : add64 (sub64 sr cs) (sub64 ss cr) = (sr - cs) + (ss - cr) := by
      rw [← wrapInt64_of_isInt64 _ h1]
      simp only [add64, sub64, wrapInt64]; omega
    rw [e1]
    generalize Int.tdiv ((sr - cs) + (ss - cr)) 2 = d at h2 ⊢
    rw [← wrapInt64_of_isInt64 _ h2]
    simp only [add64, sub64, wrapInt64]; omega
  obtain ⟨k1, k2, k3⟩ := key cs cr sr ss
  refine ⟨⟨k1, k2, k3⟩, ?_, ?_, ?_⟩
  · intro hfit
    have : add64 B cs = B + cs := wrapInt64_of_isInt64 _ hfit
    rw [k1, k2, this]
    exact ⟨rfl, rfl⟩
  · intro h1 h2
    rw [k3, exact_server cs cr sr ss h1 h2]
  · intro h1 h2
    obtain ⟨t1, t2, t3⟩ := key 100 200 1110 1190
    have e : add64 B 100 = B + 100 := wrapInt64_of_isInt64 _ h1
    have hd : Int.tdiv ((1110 - 100) + (1190 - 200)) 2 = 1000 := by decide
    have e3 := exact_server 100 200 1110 1190 (by decide)
      (by rw [hd]; simp only [isInt64] at h1 h2 ⊢; constructor <;> omega)
    rw [hd] at e3
    rw [t1, t2, t3, e, e3]
    refine ⟨rfl, rfl, ?_⟩
    congr 1
    omega

/-- The insertion order `sharedServer, client, server, sharedClient` with the base
offset 5000. -/
theorem C10_corrected_timings_witness :
    ([2, 0, 3, 1] : List (Fin 4)).Perm [0, 1, 2, 3] ∧
    (isInt64 7 ∧ isInt64 31 ∧ isInt64 1000 ∧ isInt64 1010 ∧ isInt64 5000) ∧
    isInt64 (5000 + 7) ∧ isInt64 ((1000 - 7) + (1010 - 31)) ∧
    isInt64 (5000 + 1000 - Int.tdiv ((1000 - 7) + (1010 - 31)) 2) ∧
    isInt64 (5000 + 100) ∧ isInt64 (5000 + 110) ∧
    correctedAt (correctedTree 7 31 1000 1010 5000 [2, 0, 3, 1]) none 1 = some (5000 + 7) ∧
    correctedAt (correctedTree 7 31 1000 1010 5000 [2, 0, 3, 1]) (some 1) 2 = some (5000 + 7) ∧
    correctedAt (correctedTree 7 31 1000 1010 5000 [2, 0, 3, 1]) (some 2) 3 =
      some (5000 + 1000 - Int.tdiv ((1000 - 7) + (1010 - 31)) 2) ∧
    correctedAt (correctedTree 100 200 1110 1190 5000 [2, 0, 3, 1]) none 1 = some (5000 + 100) ∧
    correctedAt (correctedTree 100 200 1110 1190 5000 [2, 0, 3, 1]) (some 1) 2 =
      some (5000 + 100) ∧
    correctedAt (correctedTree 100 200 1110 1190 5000 [2, 0, 3, 1]) (some 2) 3 =
      some (5000 + 110) := by
  have hw := C10_corrected_timings 7 31 1000 1010 5000 [2, 0, 3, 1] (by decide) (by decide)
  have h1 := hw.2.1 (by decide)
  have h2 := hw.2.2.1 (by decide) (by decide)
  have h3 := hw.2.2.2 (by decide) (by decide)
  exact ⟨by decide, by decide, by decide, by decide, by decide, by decide, by decide,
    h1.1, h1.2, h2, h3.1, h3.2.1, h3.2.2⟩

/-! ## What the decoder does with each shape of Timestamp and Duration -/

/-- The value `ParseInt` returns next to an error: 0 with a syntax error, a bound of
`int64` with a range error. -/
theorem ParseInt_error_value (s : String) :
    ((ParseInt s).2 = some NumError.ErrSyntax → (ParseInt s).1 = 0) ∧
    ((ParseInt s).2 = some NumError.ErrRange →
      (ParseInt s).1 = maxInt64 ∨ (ParseInt s).1 = minInt64) := by
  unfold ParseInt
  cases s.toList with
  | nil => simp
  | cons c rest =>
    simp only
    generalize ParseUint (if c = '+' ∨ c = '-' then rest else c :: rest) = r
    by_cases h1 : r.2 = some NumError.ErrSyntax
    · rw [if_pos h1]; simp
    · by_cases h2 : ¬ c = '-' ∧ r.1 ≥ 2 ^ 63
      · rw [if_neg h1, if_pos h2]; simp [maxInt64]
      · by_cases h3 : c = '-' ∧ r.1 > 2 ^ 63
        · rw [if_neg h1, if_neg h2, if_pos h3]; simp [minInt64]
        · rw [if_neg h1, if_neg h2, if_neg h3]; simp

/-- The error left by the two type switches is nil exactly when Duration is a valid
decimal string, or Duration is a number and Timestamp can be interpreted. -/
theorem switches_err_none (ts du : Iface) :
    (switchDuration du (switchTimestamp ts).2).2 = none ↔
      ((∃ s, du = Iface.str s ∧ (ParseInt s).2 = none) ∨
       ((∃ f, du = Iface.float64 f) ∧ isIntegerEncoding ts = true)) := by
  cases du with
  | nil => simp [switchDuration]
  | bool b => simp [switchDuration]
  | other n => simp [switchDuration]
  | str s => simp [switchDuration]
  | float64 f =>
    cases ts with
    | nil => simp [switchDuration, switchTimestamp, isIntegerEncoding]
    | bool b => simp [switchDuration, switchTimestamp, isIntegerEncoding]
    | other n => simp [switchDuration, switchTimestamp, isIntegerEncoding]
    | float64 g => simp [switchDuration, switchTimestamp, isIntegerEncoding]
    | str s => simp [switchDuration, switchTimestamp, isIntegerEncoding]

/-- The decoder returns nil exactly when the two type switches leave an error. -/
theorem ToZipkincoreSpan_none_iff {E : Type} (ro : RangeOrder)
    (e2z : Option E → Option Endpoint) (span : SpanV2 E) :
    (ToZipkincoreSpan ro e2z span).2 = none ↔
      (switchDuration span.Duration (switchTimestamp span.Timestamp).2).2 ≠ none := by
  rw [ToZipkincoreSpan_snd]
  split <;> simp_all

/-! ## The fields of the decoded span -/

/-- A span the decoder returns, field by field. -/
theorem ToZipkincoreSpan_some {E : Type} (ro : RangeOrder)
    (e2z : Option E → Option Endpoint) (span : SpanV2 E) (sp : Span)
    (hok : (ToZipkincoreSpan ro e2z span).2 = some sp) :
    sp =
      { TraceID := span.TraceID
        ID := span.ID
        Name := cacheString span.Name
        ParentID := if span.TraceID = span.ID then none else span.ParentID
        Annotations := []
        BinaryAnnotations := tagAnnotations ro (e2z span.Endpoint) (synthesizeTags span).Tags
        Debug := false
        Timestamp := some (switchTimestamp span.Timestamp).1
        Duration := some (switchDuration span.Duration (switchTimestamp span.Timestamp).2).1
        TraceIDHigh := none } := by
  rw [ToZipkincoreSpan_snd] at hok
  split at hok
  · exact absurd hok (by simp)
  · exact (Option.some.inj hok).symm

/-- A span without annotations is no merge point. -/
theorem mergePoint_of_no_annotations (s : Span) (h : s.Annotations = []) :
    mergePoint s = none := by
  simp [mergePoint, annotationTime, h]

/-- C14: a span the decoder returns has an empty annotation list, whatever the Kind of
the input; it is no merge point, and neither is the merge of two such spans, whose
annotations are the concatenation of two empty lists. -/
theorem C14_no_annotations {E : Type} (ro : RangeOrder) (e2z : Option E → Option Endpoint)
    (span1 span2 : SpanV2 E) (sp1 sp2 : Span)
    (h1 : (ToZipkincoreSpan ro e2z span1).2 = some sp1)
    (h2 : (ToZipkincoreSpan ro e2z span2).2 = some sp2) :
    sp1.Annotations = [] ∧ mergePoint sp1 = none ∧
    sp1.Annotations ++ sp2.Annotations = [] ∧
    (mergeSpansInPlace sp1 sp2).Annotations = [] ∧
    mergePoint (mergeSpansInPlace sp1 sp2) = none := by
  have e1 : sp1.Annotations = [] := by rw [ToZipkincoreSpan_some ro e2z span1 sp1 h1]
  have e2 : sp2.Annotations = [] := by rw [ToZipkincoreSpan_some ro e2z span2 sp2 h2]
  have e3 : (mergeSpansInPlace sp1 sp2).Annotations = [] := by
    simp [mergeSpansInPlace, e1, e2]
  exact ⟨e1, mergePoint_of_no_annotations sp1 e1, by simp [e1, e2], e3,
    mergePoint_of_no_annotations _ e3⟩

/-- A span of kind SERVER and one of kind CLIENT decode to spans without annotations. -/
theorem C14_no_annotations_witness :
    spanRootWithParent.Kind = "SERVER" ∧ spanTwoTags.Kind = "CLIENT" ∧
    (ToZipkincoreSpan RangeOrder.listed noEndpoint spanRootWithParent).2 =
      some spanRootWithParentOut ∧
    (ToZipkincoreSpan RangeOrder.listed noEndpoint spanTwoTags).2 = some spanTwoTagsOut ∧
    (spanRootWithParentOut.Annotations = [] ∧ mergePoint spanRootWithParentOut = none ∧
     spanRootWithParentOut.Annotations ++ spanTwoTagsOut.Annotations = [] ∧
     (mergeSpansInPlace spanRootWithParentOut spanTwoTagsOut).Annotations = [] ∧
     mergePoint (mergeSpansInPlace spanRootWithParentOut spanTwoTagsOut) = none) :=
  ⟨by decide, by decide, by decide, by decide,
    C14_no_annotations RangeOrder.listed noEndpoint spanRootWithParent spanTwoTags
      spanRootWithParentOut spanTwoTagsOut (by decide) (by decide)⟩

/-- C15: when a span with a non-empty tag map decodes successfully, the binary
annotations of the returned span are, in some order, one per entry `(k, v)` of the map,
with key `k`, value the bytes of `v`, type STRING and the converted local endpoint as
host; no name tag is added, so there are as many binary annotations as tags. -/
theorem C15_one_per_tag {E : Type} (ro : RangeOrder) (e2z : Option E → Option Endpoint)
    (span : SpanV2 E) (sp : Span) (tags : List (String × String))
    (hok : (ToZipkincoreSpan ro e2z span).2 = some sp)
    (ht : span.Tags = some tags) (hne : tags ≠ []) :
    sp.BinaryAnnotations.Perm (tags.map (tagOf (e2z span.Endpoint))) ∧
    sp.BinaryAnnotations.length = tags.length := by
  have hlen : mapLen span.Tags ≠ 0 := by
    rw [ht]; simpa [mapLen] using hne
  have hs : (synthesizeTags span).Tags = some tags := by
    rw [synthesizeTags, if_neg hlen, ht]
  have hb : sp.BinaryAnnotations = (ro.pick tags).map (tagOf (e2z span.Endpoint)) := by
    rw [ToZipkincoreSpan_some ro e2z span sp hok]
    simp only [tagAnnotations, hs, Option.getD_some]
    rfl
  rw [hb]
  exact ⟨(ro.perm tags).map _, by rw [List.length_map, (ro.perm tags).length_eq]⟩

/-- A span with the tags "a" and "b", visited in the reverse order. -/
theorem C15_one_per_tag_witness :
    (ToZipkincoreSpan RangeOrder.reversed noEndpoint spanTwoTags).2 =
      some { spanTwoTagsOut with
             BinaryAnnotations := [tagOf none ("b", "y"), tagOf none ("a", "x")] } ∧
    spanTwoTags.Tags = some [("a", "x"), ("b", "y")] ∧
    [("a", "x"), ("b", "y")] ≠ ([] : List (String × String)) ∧
    ([tagOf none ("b", "y"), tagOf none ("a", "x")].Perm
        ([("a", "x"), ("b", "y")].map (tagOf (noEndpoint spanTwoTags.Endpoint))) ∧
     [tagOf none ("b", "y"), tagOf none ("a", "x")].length =
        [("a", "x"), ("b", "y")].length) :=
  ⟨by decide, by decide, by decide,
    C15_one_per_tag RangeOrder.reversed noEndpoint spanTwoTags
      { spanTwoTagsOut with
        BinaryAnnotations := [tagOf none ("b", "y"), tagOf none ("a", "x")] }
      [("a", "x"), ("b", "y")] (by decide) (by decide) (by decide)⟩

/-- C16: a span the decoder returns has the TraceID, ID and Name of the input, and when
TraceID differs from ID also its ParentID, an absent parent staying absent. -/
theorem C16_identity_fields_kept {E : Type} (ro : RangeOrder)
    (e2z : Option E → Option Endpoint) (span : SpanV2 E) (sp : Span)
    (hok : (ToZipkincoreSpan ro e2z span).2 = some sp) :
    sp.TraceID = span.TraceID ∧ sp.ID = span.ID ∧ sp.Name = span.Name ∧
    (span.TraceID ≠ span.ID → sp.ParentID = span.ParentID) ∧
    (span.TraceID ≠ span.ID → span.ParentID = none → sp.ParentID = none) := by
  rw [ToZipkincoreSpan_some ro e2z span sp hok]
  refine ⟨rfl, rfl, rfl, ?_, ?_⟩
  · intro h; simp [h]
  · intro h hp; simp [h, hp]

/-- A span with trace id 7, id 8 and parent 3 keeps all three and its name. -/
theorem C16_identity_fields_kept_witness :
    (ToZipkincoreSpan RangeOrder.listed noEndpoint spanTwoTags).2 = some spanTwoTagsOut ∧
    spanTwoTags.TraceID ≠ spanTwoTags.ID ∧ spanTwoTags.ParentID = some 3 ∧
    spanTwoTagsOut.TraceID = 7 ∧ spanTwoTagsOut.ID = 8 ∧ spanTwoTagsOut.Name = "get" ∧
    spanTwoTagsOut.ParentID = some 3 := by
  obtain ⟨h1, h2, h3, h4, _⟩ :=
    C16_identity_fields_kept RangeOrder.listed noEndpoint spanTwoTags spanTwoTagsOut (by decide)
  exact ⟨by decide, by decide, rfl, h1, h2, h3, h4 (by decide)⟩


/-! ## Calling the decoder twice -/

/-- The receiver after the call. -/
theorem ToZipkincoreSpan_fst {E : Type} (ro : RangeOrder)
    (e2z : Option E → Option Endpoint) (span : SpanV2 E) :
    (ToZipkincoreSpan ro e2z span).1 = synthesizeTags span := by
  simp only [ToZipkincoreSpan]
  split <;> rfl

/-- The tags of the receiver after the call. -/
theorem synthesizeTags_Tags {E : Type} (span : SpanV2 E) :
    (synthesizeTags span).Tags =
      if mapLen span.Tags = 0 then some [("dd.name", span.Name)] else span.Tags := by
  unfold synthesizeTags; split <;> rfl

/-- Only the tags of the receiver change. -/
theorem synthesizeTags_eq {E : Type} (span : SpanV2 E) :
    synthesizeTags span = { span with Tags := (synthesizeTags span).Tags } := by
  unfold synthesizeTags; split <;> rfl

/-- After the call the receiver has tags. -/
theorem mapLen_synthesizeTags {E : Type} (span : SpanV2 E) :
    mapLen (synthesizeTags span).Tags ≠ 0 := by
  rw [synthesizeTags_Tags]
  split
  · simp [mapLen]
  · assumption

/-- A receiver with tags is left as it is. -/
theorem synthesizeTags_of_tags {E : Type} (span : SpanV2 E) (h : mapLen span.Tags ≠ 0) :
    synthesizeTags span = span := by
  unfold synthesizeTags
  rw [if_neg h]

/-- A second call leaves the receiver as the first call left it. -/
theorem synthesizeTags_idem {E : Type} (span : SpanV2 E) :
    synthesizeTags (synthesizeTags span) = synthesizeTags span :=
  synthesizeTags_of_tags _ (mapLen_synthesizeTags span)

/-- C17: calling `ToZipkincoreSpan` twice on the same receiver gives equal results: both
nil, or two spans with equal fields and the same binary annotations up to their order.
The first call changes no field of the receiver except Tags, which becomes the single
entry "dd.name" -> Name only when it was empty; the second call leaves the receiver as
it is and then produces the same single tag. -/
theorem C17_second_call_agrees {E : Type} (ro1 ro2 : RangeOrder)
    (e2z : Option E → Option Endpoint) (span : SpanV2 E) :
    ((ToZipkincoreSpan ro1 e2z span).2 = none ↔
      (ToZipkincoreSpan ro2 e2z (ToZipkincoreSpan ro1 e2z span).1).2 = none) ∧
    (∀ sp1 sp2, (ToZipkincoreSpan ro1 e2z span).2 = some sp1 →
      (ToZipkincoreSpan ro2 e2z (ToZipkincoreSpan ro1 e2z span).1).2 = some sp2 →
        { sp2 with BinaryAnnotations := sp1.BinaryAnnotations } = sp1 ∧
        sp1.BinaryAnnotations.Perm sp2.BinaryAnnotations ∧
        (mapLen span.Tags = 0 →
          sp1.BinaryAnnotations = [tagOf (e2z span.Endpoint) ("dd.name", span.Name)] ∧
          sp2.BinaryAnnotations = [tagOf (e2z span.Endpoint) ("dd.name", span.Name)])) ∧
    (ToZipkincoreSpan ro1 e2z span).1 =
      { span with Tags := (ToZipkincoreSpan ro1 e2z span).1.Tags } ∧
    (ToZipkincoreSpan ro1 e2z span).1.Tags =
      (if mapLen span.Tags = 0 then some [("dd.name", span.Name)] else span.Tags) ∧
    (ToZipkincoreSpan ro2 e2z (ToZipkincoreSpan ro1 e2z span).1).1 =
      (ToZipkincoreSpan ro1 e2z span).1 := by
  rw [ToZipkincoreSpan_fst]
  refine ⟨?_, ?_, synthesizeTags_eq span, synthesizeTags_Tags span, ?_⟩
  · rw [ToZipkincoreSpan_none_iff, ToZipkincoreSpan_none_iff, synthesizeTags_Timestamp,
      synthesizeTags_Duration]
  · intro sp1 sp2 h1 h2
    have e1 := ToZipkincoreSpan_some ro1 e2z span sp1 h1
    have e2 := ToZipkincoreSpan_some ro2 e2z (synthesizeTags span) sp2 h2
    rw [synthesizeTags_idem] at e2
    simp only [synthesizeTags_Timestamp, synthesizeTags_Duration, synthesizeTags_TraceID,
      synthesizeTags_ID, synthesizeTags_ParentID, synthesizeTags_Name] at e2
    have hE : (synthesizeTags span).Endpoint = span.Endpoint := by
      unfold synthesizeTags; split <;> rfl
    rw [hE] at e2
    refine ⟨?_, ?_, ?_⟩
    · rw [e1, e2]
    · rw [e1, e2]
      simp only [tagAnnotations]
      exact ((ro1.perm _).trans (ro2.perm _).symm).map _
    · intro h0
      have hp1 := ro1.perm [("dd.name", span.Name)]
      have hp2 := ro2.perm [("dd.name", span.Name)]
      rw [List.perm_singleton] at hp1 hp2
      rw [e1, e2]
      simp only [tagAnnotations, synthesizeTags_Tags, h0, if_true, Option.getD_some, hp1, hp2,
        List.map_cons, List.map_nil]
      exact ⟨rfl, rfl⟩
  · rw [ToZipkincoreSpan_fst, synthesizeTags_idem]

/-- A span with an empty tag map, decoded twice with different iteration orders: both
calls return the same span with the one tag "dd.name". -/
theorem C17_second_call_agrees_witness :
    mapLen spanEmptyTags.Tags = 0 ∧
    (ToZipkincoreSpan RangeOrder.listed noEndpoint spanEmptyTags).2 = some spanEmptyTagsOut ∧
    (ToZipkincoreSpan RangeOrder.reversed noEndpoint
      (ToZipkincoreSpan RangeOrder.listed noEndpoint spanEmptyTags).1).2 =
        some spanEmptyTagsOut ∧
    ({ spanEmptyTagsOut with BinaryAnnotations := spanEmptyTagsOut.BinaryAnnotations } =
        spanEmptyTagsOut ∧
     spanEmptyTagsOut.BinaryAnnotations.Perm spanEmptyTagsOut.BinaryAnnotations ∧
     spanEmptyTagsOut.BinaryAnnotations =
        [tagOf (noEndpoint spanEmptyTags.Endpoint) ("dd.name", spanEmptyTags.Name)]) := by
  obtain ⟨h1, h2, h3⟩ :=
    (C17_second_call_agrees RangeOrder.listed RangeOrder.reversed noEndpoint spanEmptyTags).2.1
      spanEmptyTagsOut spanEmptyTagsOut (by decide) (by decide)
  exact ⟨by decide, by decide, by decide, h1, h2, (h3 (by decide)).1⟩

/-! ## The span tree -/

/-- The merger keeps the key of its first argument when both halves have one key. -/
theorem keyOf_mergeSpansInPlace (a b : Span) (h : keyOf b = keyOf a) :
    keyOf (mergeSpansInPlace a b) = keyOf a := by
  simp only [keyOf, Prod.mk.injEq] at h
  simp only [keyOf, mergeSpansInPlace, Prod.mk.injEq, and_true]
  rw [h.1]
  cases a.ParentID <;> rfl

/-- The entry found under a key has this key. -/
theorem find_key (nodes : List (Key × Span)) (k : Key) (e : Key × Span)
    (h : nodes.find? (fun e => decide (e.1 = k)) = some e) : e.1 = k := by
  have := List.find?_some h
  simpa using this

/-- A key is present exactly when its lookup succeeds. -/
theorem any_key_eq (nodes : List (Key × Span)) (k : Key) :
    nodes.any (fun e => decide (e.1 = k)) =
      (nodes.find? fun e => decide (e.1 = k)).isSome := by
  induction nodes with
  | nil => rfl
  | cons e rest ih =>
    by_cases he : e.1 = k <;> simp [List.find?_cons, he, ih]

/-- The lookup after `AddSpan`: the span is merged into the record under its key or
stored there, and the other keys keep their record. -/
theorem GetSpan_AddSpan (t : Tree) (s : Span) (k : Key) :
    (t.AddSpan s).GetSpan k.1 k.2 =
      if k = keyOf s then
        some (match t.GetSpan k.1 k.2 with
          | none => s
          | some r => mergeSpansInPlace r s)
      else t.GetSpan k.1 k.2 := by
  obtain ⟨nodes⟩ := t
  simp only [Tree.GetSpan, Tree.AddSpan, Prod.mk.eta]
  rw [any_key_eq]
  cases hf : nodes.find? (fun e => decide (e.1 = keyOf s)) with
  | none =>
    simp only [Option.isSome_none, Bool.false_eq_true, if_false, List.find?_append]
    by_cases hk : k = keyOf s
    · subst hk
      simp [hf]
    · have hk2 : ¬ keyOf s = k := fun h => hk h.symm
      simp [hk, hk2]
  | some e0 =>
    simp only [Option.isSome_some, if_true, List.find?_map]
    have hcomp : ((fun e : Key × Span => decide (e.1 = k)) ∘
        fun e : Key × Span => if e.1 = keyOf s then (e.1, mergeSpansInPlace e.2 s) else e) =
        fun e : Key × Span => decide (e.1 = k) := by
      funext e
      by_cases he : e.1 = keyOf s <;> simp [Function.comp, he]
    rw [hcomp]
    by_cases hk : k = keyOf s
    · subst hk
      simp [hf, find_key _ _ _ hf]
    · cases hg : nodes.find? (fun e => decide (e.1 = k)) with
      | none => simp [hk]
      | some e1 =>
        have h1 := find_key _ _ _ hg
        have h2 : ¬ e1.1 = keyOf s := fun h => hk (h1.symm.trans h)
        simp [hk, h2]

/-- Adding one more span to the tree of a list. -/
theorem buildTree_concat (l : List Span) (s : Span) :
    buildTree (l ++ [s]) = (buildTree l).AddSpan s := by
  simp [buildTree, List.foldl_append]

/-- Merging one more half. -/
theorem mergeAll_concat (xs : List Span) (s : Span) :
    mergeAll (xs ++ [s]) =
      some (match mergeAll xs with
        | none => s
        | some r => mergeSpansInPlace r s) := by
  cases xs with
  | nil => rfl
  | cons x rest => simp [mergeAll, List.foldl_append]

/-- The record under a key is the merge, in the order of insertion, of the spans that
have this key. -/
theorem GetSpan_buildTree (l : List Span) (k : Key) :
    (buildTree l).GetSpan k.1 k.2 = mergeAll (halvesAt l k) := by
  induction l using List.reverseRecOn with
  | nil => rfl
  | append_singleton l s ih =>
    rw [buildTree_concat, GetSpan_AddSpan, ih]
    by_cases hk : k = keyOf s
    · subst hk
      simp [halvesAt, List.filter_append, mergeAll_concat]
    · have hk2 : ¬ keyOf s = k := fun h => hk h.symm
      simp [halvesAt, List.filter_append, hk, hk2]

/-- The keys after `AddSpan`: a new key goes to the end. -/
theorem keys_AddSpan (t : Tree) (s : Span) :
    (t.AddSpan s).keys = if keyOf s ∈ t.keys then t.keys else t.keys ++ [keyOf s] := by
  obtain ⟨nodes⟩ := t
  have hany : nodes.any (fun e => decide (e.1 = keyOf s)) = true ↔
      keyOf s ∈ nodes.map (fun e => e.1) := by
    simp only [List.any_eq_true, decide_eq_true_eq, List.mem_map]
  simp only [Tree.AddSpan, Tree.keys]
  by_cases h : keyOf s ∈ nodes.map (fun e => e.1)
  · rw [if_pos (hany.mpr h), if_pos h]
    simp only [List.map_map]
    apply List.map_congr_left
    intro e _
    by_cases he : e.1 = keyOf s <;> simp [he]
  · rw [if_neg (fun h1 => h (hany.mp h1)), if_neg h]
    simp

/-- The keys of a built tree are the keys of the spans. -/
theorem mem_keys_buildTree (l : List Span) (k : Key) :
    k ∈ (buildTree l).keys ↔ ∃ s ∈ l, keyOf s = k := by
  induction l using List.reverseRecOn generalizing k with
  | nil => simp [buildTree, newTree, Tree.keys]
  | append_singleton l s ih =>
    rw [buildTree_concat, keys_AddSpan]
    split
    · rename_i hmem
      constructor
      · intro hk
        obtain ⟨x, hx, h⟩ := (ih k).mp hk
        exact ⟨x, List.mem_append_left _ hx, h⟩
      · rintro ⟨x, hx, h⟩
        rcases List.mem_append.mp hx with hx | hx
        · exact (ih k).mpr ⟨x, hx, h⟩
        · simp only [List.mem_singleton] at hx
          subst hx
          rw [← h]
          exact hmem
    · rw [List.mem_append, ih]
      constructor
      · rintro (⟨x, hx, h⟩ | h)
        · exact ⟨x, List.mem_append_left _ hx, h⟩
        · simp only [List.mem_singleton] at h
          exact ⟨s, by simp, h.symm⟩
      · rintro ⟨x, hx, h⟩
        rcases List.mem_append.mp hx with hx | hx
        · exact Or.inl ⟨x, hx, h⟩
        · simp only [List.mem_singleton] at hx
          subst hx
          exact Or.inr (by simp [h])

/-- No key occurs twice in a built tree. -/
theorem nodup_keys_buildTree (l : List Span) : (buildTree l).keys.Nodup := by
  induction l using List.reverseRecOn with
  | nil => simp [buildTree, newTree, Tree.keys]
  | append_singleton l s ih =>
    rw [buildTree_concat, keys_AddSpan]
    split
    · exact ih
    · rename_i hmem
      exact List.Nodup.append ih (List.nodup_singleton _) (by simpa using hmem)

/-- The entries after `AddSpan` are stored under their own keys when those before are. -/
theorem keyOf_nodes_AddSpan (t : Tree) (s : Span)
    (h : ∀ e ∈ t.nodes, keyOf e.2 = e.1) : ∀ e ∈ (t.AddSpan s).nodes, keyOf e.2 = e.1 := by
  intro e he
  simp only [Tree.AddSpan] at he
  split at he
  · simp only [List.mem_map] at he
    obtain ⟨e0, he0, rfl⟩ := he
    by_cases hk : e0.1 = keyOf s
    · simp only [hk, if_true]
      rw [keyOf_mergeSpansInPlace e0.2 s (by rw [h e0 he0, hk]), h e0 he0, hk]
    · simp only [hk, if_false]
      exact h e0 he0
  · simp only [List.mem_append, List.mem_singleton] at he
    rcases he with he | rfl
    · exact h e he
    · rfl

/-- Every record of a built tree is stored under its own key. -/
theorem keyOf_nodes_buildTree (l : List Span) :
    ∀ e ∈ (buildTree l).nodes, keyOf e.2 = e.1 := by
  induction l using List.reverseRecOn with
  | nil => simp [buildTree, newTree]
  | append_singleton l s ih =>
    rw [buildTree_concat]
    exact keyOf_nodes_AddSpan _ s ih


/-- Rearranged lists have the same only element. -/
theorem onlyOne_perm {α : Type} {l1 l2 : List α} (h : l1.Perm l2) : onlyOne l1 = onlyOne l2 := by
  match l1, l2, h with
  | [], l2, h => rw [List.perm_nil.mp h.symm]
  | [a], l2, h => rw [List.singleton_perm.mp h]
  | a :: b :: r, [], h => exact absurd h.length_eq (by simp)
  | a :: b :: r, [c], h => exact absurd h.length_eq (by simp)
  | a :: b :: r, c :: d :: r2, _ => rfl

/-- A test that holds of one element only filters a list without repetition down to it. -/
theorem filter_eq_singleton {α : Type} (P : α → Bool) (l : List α) (a : α) (hn : l.Nodup)
    (ha : a ∈ l) (hP : ∀ x ∈ l, P x = true ↔ x = a) : l.filter P = [a] := by
  induction l with
  | nil => simp at ha
  | cons x rest ih =>
    rw [List.nodup_cons] at hn
    by_cases hx : x = a
    · subst hx
      have hrest : rest.filter P = [] := by
        rw [List.filter_eq_nil_iff]
        intro y hy hPy
        have := (hP y (List.mem_cons_of_mem _ hy)).mp hPy
        exact hn.1 (this ▸ hy)
      rw [List.filter_cons_of_pos ((hP x (List.mem_cons_self _ _)).mpr rfl), hrest]
    · have hxP : ¬ P x = true := fun h => hx ((hP x (List.mem_cons_self _ _)).mp h)
      rw [List.filter_cons_of_neg hxP]
      have ha2 : a ∈ rest := by
        rcases List.mem_cons.mp ha with h | h
        · exact absurd h.symm hx
        · exact h
      exact ih hn.2 ha2 (fun y hy => hP y (List.mem_cons_of_mem _ hy))

/-- In a list without repeated keys an entry is the one found under its key. -/
theorem find_of_mem (nodes : List (Key × Span)) (hn : (nodes.map fun e => e.1).Nodup)
    (e : Key × Span) (he : e ∈ nodes) :
    nodes.find? (fun x => decide (x.1 = e.1)) = some e := by
  induction nodes with
  | nil => simp at he
  | cons x rest ih =>
    rw [List.map_cons, List.nodup_cons] at hn
    rcases List.mem_cons.mp he with h | h
    · subst h; simp
    · have hx : ¬ x.1 = e.1 := by
        intro hxe
        exact hn.1 (hxe ▸ List.mem_map_of_mem (fun e => e.1) h)
      simp only [List.find?_cons, hx, decide_False]
      exact ih hn.2 h

/-- The entries of a built tree are the pairs of a key and the record looked up there. -/
theorem mem_nodes_buildTree (l : List Span) (e : Key × Span) :
    e ∈ (buildTree l).nodes ↔ (buildTree l).GetSpan e.1.1 e.1.2 = some e.2 := by
  constructor
  · intro he
    simp only [Tree.GetSpan, Prod.mk.eta]
    rw [find_of_mem _ (nodup_keys_buildTree l) e he]
    rfl
  · intro h
    simp only [Tree.GetSpan, Prod.mk.eta] at h
    cases hf : (buildTree l).nodes.find? (fun x => decide (x.1 = e.1)) with
    | none => rw [hf] at h; simp at h
    | some e0 =>
      rw [hf] at h
      simp only [Option.map_some', Option.some.injEq] at h
      have h1 := find_key _ _ _ hf
      have : e0 = e := Prod.ext h1 h
      rw [← this]
      exact List.mem_of_find?_eq_some hf

/-- No entry occurs twice in a built tree. -/
theorem nodup_nodes_buildTree (l : List Span) : (buildTree l).nodes.Nodup :=
  List.Nodup.of_map _ (nodup_keys_buildTree l)

/-- Two orders of insertion give the same keys. -/
theorem keys_perm (l1 l2 : List Span) (h : l1.Perm l2) :
    (buildTree l1).keys.Perm (buildTree l2).keys := by
  rw [List.perm_ext_iff_of_nodup (nodup_keys_buildTree l1) (nodup_keys_buildTree l2)]
  intro k
  rw [mem_keys_buildTree, mem_keys_buildTree]
  constructor
  · rintro ⟨s, hs, hk⟩; exact ⟨s, h.mem_iff.mp hs, hk⟩
  · rintro ⟨s, hs, hk⟩; exact ⟨s, h.mem_iff.mpr hs, hk⟩

/-- Whether the parent reference of a key is satisfied does not depend on the order of
the keys. -/
theorem keyHasParent_perm {ks1 ks2 : List Key} (h : ks1.Perm ks2) (k : Key) :
    keyHasParent ks1 k = keyHasParent ks2 k := by
  unfold keyHasParent
  cases k.1 with
  | none => rfl
  | some p =>
    simp only
    rw [Bool.eq_iff_iff, List.any_eq_true, List.any_eq_true]
    constructor
    · rintro ⟨x, hx, h1⟩; exact ⟨x, h.mem_iff.mp hx, h1⟩
    · rintro ⟨x, hx, h1⟩; exact ⟨x, h.mem_iff.mpr hx, h1⟩

/-- The key of the root does not depend on the order of the keys. -/
theorem rootKey_perm {ks1 ks2 : List Key} (h : ks1.Perm ks2) : rootKey ks1 = rootKey ks2 := by
  unfold rootKey
  apply onlyOne_perm
  have hf : (fun k => !keyHasParent ks1 k) = fun k => !keyHasParent ks2 k := by
    funext k; rw [keyHasParent_perm h]
  rw [hf]
  exact h.filter _

/-- In a tree whose records are stored under their own keys, the test of `Root()` reads
the keys only. -/
theorem hasParent_eq (t : Tree) (hinv : ∀ e ∈ t.nodes, keyOf e.2 = e.1) (e : Key × Span)
    (he : e ∈ t.nodes) : t.hasParent e.2 = keyHasParent t.keys e.1 := by
  have h1 : e.2.ParentID = e.1.1 := by rw [← hinv e he]; rfl
  unfold Tree.hasParent keyHasParent
  rw [h1]
  cases e.1.1 with
  | none => rfl
  | some p =>
    simp only [Tree.keys]
    rw [Bool.eq_iff_iff, List.any_eq_true, List.any_eq_true]
    constructor
    · rintro ⟨x, hx, hp⟩
      refine ⟨x.1, List.mem_map_of_mem (fun e => e.1) hx, ?_⟩
      have : x.2.ID = x.1.2 := by rw [← hinv x hx]; rfl
      simpa [this] using hp
    · rintro ⟨k, hk, hp⟩
      obtain ⟨x, hx, rfl⟩ := List.mem_map.mp hk
      refine ⟨x, hx, ?_⟩
      have : x.2.ID = x.1.2 := by rw [← hinv x hx]; rfl
      simpa [this] using hp

/-- `Root()` as the only entry without a satisfied parent reference. -/
theorem Root_eq (t : Tree) :
    t.Root = (onlyOne (t.nodes.filter fun e => !t.hasParent e.2)).map fun e => e.2 := by
  unfold Tree.Root onlyOne
  split <;> simp_all

/-- The key of the span `Root()` returns, read from the keys of the tree. -/
theorem Root_key (t : Tree) (hinv : ∀ e ∈ t.nodes, keyOf e.2 = e.1) :
    t.Root.map keyOf = rootKey t.keys := by
  have hfilter : (t.nodes.filter fun e => !t.hasParent e.2) =
      t.nodes.filter ((fun k => !keyHasParent t.keys k) ∘ fun e => e.1) := by
    apply List.filter_congr
    intro e he
    simp [hasParent_eq t hinv e he]
  rw [Root_eq, hfilter, rootKey, Tree.keys, List.filter_map]
  generalize hF : t.nodes.filter ((fun k => !keyHasParent (t.nodes.map fun e => e.1) k) ∘
    fun e => e.1) = F
  have hsub : ∀ e ∈ F, e ∈ t.nodes := by
    intro e he
    rw [← hF] at he
    exact (List.mem_filter.mp he).1
  match F, hsub with
  | [], _ => rfl
  | [e], hsub =>
    simp only [onlyOne, Option.map_some', List.map_cons, List.map_nil]
    rw [hinv e (hsub e (List.mem_singleton_self e))]
  | a :: b :: r, _ => rfl


/-- The keys of the children of a span, read from the keys of the tree. -/
theorem ChildrenOf_keys (t : Tree) (hinv : ∀ e ∈ t.nodes, keyOf e.2 = e.1) (x : Span) :
    (t.ChildrenOf x).map keyOf = t.keys.filter fun k => decide (k.1 = some x.ID) := by
  simp only [Tree.ChildrenOf, Tree.keys, List.filter_map, List.map_map]
  apply List.map_congr_left
  intro e he
  exact hinv e (List.mem_filter.mp he).1

/-- Two orders of insertion in which the halves of every key merge to the same record give
the same entries. -/
theorem nodes_perm (l1 l2 : List Span)
    (hk : ∀ k, mergeAll (halvesAt l1 k) = mergeAll (halvesAt l2 k)) :
    (buildTree l1).nodes.Perm (buildTree l2).nodes := by
  rw [List.perm_ext_iff_of_nodup (nodup_nodes_buildTree l1) (nodup_nodes_buildTree l2)]
  intro e
  rw [mem_nodes_buildTree, mem_nodes_buildTree, GetSpan_buildTree l1 e.1,
    GetSpan_buildTree l2 e.1, hk]

/-- `Root()` does not depend on the order of the entries. -/
theorem Root_perm (t1 t2 : Tree) (h : t1.nodes.Perm t2.nodes) : t1.Root = t2.Root := by
  have hp : ∀ s, t1.hasParent s = t2.hasParent s := by
    intro s
    unfold Tree.hasParent
    cases s.ParentID with
    | none => rfl
    | some p =>
      simp only
      rw [Bool.eq_iff_iff, List.any_eq_true, List.any_eq_true]
      constructor
      · rintro ⟨x, hx, h1⟩; exact ⟨x, h.mem_iff.mp hx, h1⟩
      · rintro ⟨x, hx, h1⟩; exact ⟨x, h.mem_iff.mpr hx, h1⟩
  rw [Root_eq, Root_eq]
  have hf : (fun e : Key × Span => !t1.hasParent e.2) = fun e => !t2.hasParent e.2 := by
    funext e; rw [hp]
  rw [hf, onlyOne_perm (h.filter _)]

/-- When no two spans have the same key, every key has the same halves in both orders. -/
theorem halvesAt_of_nodup (l1 l2 : List Span) (h : l1.Perm l2)
    (hn : (l1.map keyOf).Nodup) (k : Key) : halvesAt l1 k = halvesAt l2 k := by
  have hp : (halvesAt l1 k).Perm (halvesAt l2 k) := h.filter _
  have hkey : ∀ s ∈ halvesAt l1 k, keyOf s = k := by
    intro s hs
    simpa using (List.mem_filter.mp hs).2
  have hnd : ((halvesAt l1 k).map keyOf).Nodup :=
    hn.sublist ((List.filter_sublist l1).map keyOf)
  match hF : halvesAt l1 k, hp, hkey, hnd with
  | [], hp, _, _ => exact (List.perm_nil.mp hp.symm).symm
  | [a], hp, _, _ => exact List.singleton_perm.mp hp
  | a :: b :: r, _, hkey, hnd =>
    have ha := hkey a (by simp)
    have hb := hkey b (by simp)
    simp [ha, hb] at hnd

/-- C11, a counterexample: two halves stored under the key `(1, 2)`, with the
annotation "first" and the timestamp 1, and with "second" and 2. Inserted in this order
the merged record has the annotations `[first, second]` and the timestamp 1, in the
other order `[second, first]` and 2. -/
theorem C11_counterexample :
    [twoHalves.1, twoHalves.2].Perm [twoHalves.2, twoHalves.1] ∧
    ((buildTree [twoHalves.1, twoHalves.2]).GetSpan (some 1) 2).map
        (fun s => (s.Annotations.map (fun a => a.Value), s.Timestamp)) =
      some (["first", "second"], some 1) ∧
    ((buildTree [twoHalves.2, twoHalves.1]).GetSpan (some 1) 2).map
        (fun s => (s.Annotations.map (fun a => a.Value), s.Timestamp)) =
      some (["second", "first"], some 2) ∧
    (buildTree [twoHalves.1, twoHalves.2]).GetSpan (some 1) 2 ≠
      (buildTree [twoHalves.2, twoHalves.1]).GetSpan (some 1) 2 :=
  ⟨List.Perm.swap _ _ _, by decide, by decide, by decide⟩

/-- The key of every entry of a built tree is the key of one of the spans. -/
theorem key_of_mem_nodes (l : List Span) (e : Key × Span) (he : e ∈ (buildTree l).nodes) :
    ∃ s ∈ l, keyOf s = e.1 :=
  (mem_keys_buildTree l e.1).mp (List.mem_map_of_mem (fun e => e.1) he)

/-- A span that alone has its key is stored as it is. -/
theorem mem_nodes_of_halves (l : List Span) (s : Span) (h : halvesAt l (keyOf s) = [s]) :
    (keyOf s, s) ∈ (buildTree l).nodes := by
  rw [mem_nodes_buildTree]
  have := GetSpan_buildTree l (keyOf s)
  rw [h] at this
  exact this

/-- The entry under a key that one span alone has. -/
theorem eq_of_mem_nodes (l : List Span) (s : Span) (h : halvesAt l (keyOf s) = [s])
    (e : Key × Span) (he : e ∈ (buildTree l).nodes) (hk : e.1 = keyOf s) :
    e = (keyOf s, s) := by
  have h1 := (mem_nodes_buildTree l e).mp he
  have h2 := GetSpan_buildTree l e.1
  rw [hk, h] at h2
  rw [hk] at h1
  have h3 : some e.2 = some s := h1.symm.trans h2
  exact Prod.ext hk (Option.some.inj h3)

/-- The children of a span are the stored spans whose parent id is its id. -/
theorem ChildrenOf_eq_filter (t : Tree) (hinv : ∀ e ∈ t.nodes, keyOf e.2 = e.1) (x : Span) :
    t.ChildrenOf x =
      (t.nodes.map fun e => e.2).filter fun s => decide (s.ParentID = some x.ID) := by
  simp only [Tree.ChildrenOf, List.filter_map]
  congr 1
  apply List.filter_congr
  intro e he
  have : e.2.ParentID = e.1.1 := by rw [← hinv e he]; rfl
  simp [this]

/-- C12: in a tree built with `AddSpan`, in any order, from a span `p` without parent id
and spans whose parent id is the id of `p`, `Root()` returns `p` and `ChildrenOf(p)`
returns the stored spans whose parent id is the id of `p`; with one such child `c` it
returns `[c]`. -/
theorem C12_root_and_children (p : Span) (cs l : List Span) (hl : l.Perm (p :: cs))
    (hp : p.ParentID = none) (hc : ∀ c ∈ cs, c.ParentID = some p.ID) :
    (buildTree l).Root = some p ∧
    (buildTree l).ChildrenOf p =
      ((buildTree l).nodes.map fun e => e.2).filter
        (fun s => decide (s.ParentID = some p.ID)) ∧
    (∀ c, cs = [c] → (buildTree l).ChildrenOf p = [c]) := by
  have hinv := keyOf_nodes_buildTree l
  have hcs : ∀ k : Key, k.1 = none → halvesAt cs k = [] := by
    intro k hk
    simp only [halvesAt, List.filter_eq_nil_iff, decide_eq_true_eq]
    intro c hcmem hkey
    have : c.ParentID = k.1 := by rw [← hkey]; rfl
    rw [hc c hcmem, hk] at this
    exact absurd this (by simp)
  have hhp : halvesAt l (keyOf p) = [p] := by
    have h1 : (halvesAt l (keyOf p)).Perm (halvesAt (p :: cs) (keyOf p)) := hl.filter _
    have h2 : halvesAt (p :: cs) (keyOf p) = [p] := by
      have := hcs (keyOf p) hp
      simp only [halvesAt] at this ⊢
      simp [List.filter_cons, this]
    rw [h2] at h1
    exact List.perm_singleton.mp h1
  have hpmem := mem_nodes_of_halves l p hhp
  have hcase : ∀ e ∈ (buildTree l).nodes, e = (keyOf p, p) ∨ ∃ c ∈ cs, keyOf c = e.1 := by
    intro e he
    obtain ⟨s, hs, hk⟩ := key_of_mem_nodes l e he
    rcases List.mem_cons.mp (hl.mem_iff.mp hs) with h | h
    · subst h
      exact Or.inl (eq_of_mem_nodes l s hhp e he hk.symm)
    · exact Or.inr ⟨s, h, hk⟩
  refine ⟨?_, ChildrenOf_eq_filter _ hinv p, ?_⟩
  · rw [Root_eq, filter_eq_singleton _ _ (keyOf p, p) (nodup_nodes_buildTree l) hpmem]
    · rfl
    · intro e he
      constructor
      · intro hP
        rcases hcase e he with h | ⟨c, hcmem, hk⟩
        · exact h
        · have hpar : e.2.ParentID = some p.ID := by
            have : e.2.ParentID = e.1.1 := by rw [← hinv e he]; rfl
            rw [this, ← hk]
            exact hc c hcmem
          have : (buildTree l).hasParent e.2 = true := by
            unfold Tree.hasParent
            rw [hpar]
            simp only [List.any_eq_true, decide_eq_true_eq]
            exact ⟨(keyOf p, p), hpmem, rfl⟩
          simp [this] at hP
      · intro h
        subst h
        simp [Tree.hasParent, hp]
  · intro c hcs1
    subst hcs1
    have hcpar : c.ParentID = some p.ID := hc c (by simp)
    have hne : keyOf p ≠ keyOf c := by
      intro h
      have : p.ParentID = c.ParentID := congrArg Prod.fst h
      rw [hp, hcpar] at this
      exact absurd this (by simp)
    have hhc : halvesAt l (keyOf c) = [c] := by
      have h1 : (halvesAt l (keyOf c)).Perm (halvesAt [p, c] (keyOf c)) := hl.filter _
      have h2 : halvesAt [p, c] (keyOf c) = [c] := by
        simp [halvesAt, List.filter_cons, hne]
      rw [h2] at h1
      exact List.perm_singleton.mp h1
    have hcmem := mem_nodes_of_halves l c hhc
    simp only [Tree.ChildrenOf]
    rw [filter_eq_singleton _ _ (keyOf c, c) (nodup_nodes_buildTree l) hcmem]
    · rfl
    · intro e he
      simp only [decide_eq_true_eq]
      constructor
      · intro h1
        rcases hcase e he with h | ⟨c1, hc1, hk⟩
        · rw [h] at h1
          have : p.ParentID = some p.ID := h1
          rw [hp] at this
          exact absurd this (by simp)
        · simp only [List.mem_singleton] at hc1
          subst hc1
          exact eq_of_mem_nodes l c1 hhc e he hk.symm
      · intro h
        rw [h]
        exact hcpar

/-- The tree of `TestTree`: `firstSpan` then `secondSpan`. -/
theorem C12_root_and_children_witness :
    [testTreeSpans.1, testTreeSpans.2].Perm [testTreeSpans.1, testTreeSpans.2] ∧
    testTreeSpans.1.ParentID = none ∧
    testTreeSpans.2.ParentID = some testTreeSpans.1.ID ∧
    (buildTree [testTreeSpans.1, testTreeSpans.2]).Root = some testTreeSpans.1 ∧
    (buildTree [testTreeSpans.1, testTreeSpans.2]).ChildrenOf testTreeSpans.1 =
      [testTreeSpans.2] := by
  have hw := C12_root_and_children testTreeSpans.1 [testTreeSpans.2]
    [testTreeSpans.1, testTreeSpans.2] (List.Perm.refl _) (by decide) (by decide)
  exact ⟨List.Perm.refl _, by decide, by decide, hw.1, hw.2.2 testTreeSpans.2 rfl⟩

/-! ## `strconv.ParseInt` against the decimal numerals -/

/-- The loop of `ParseUint` reads a decimal digit as its value. -/
theorem digitOf_of_digit (c : Char) (h : isDecimalDigit c = true) :
    digitOf c = some (decimalDigits.indexOf c) ∧ decimalDigits.indexOf c < 10 := by
  simp only [isDecimalDigit, decimalDigits, decide_eq_true_eq, List.mem_cons,
    List.mem_singleton, List.not_mem_nil, or_false] at h
  rcases h with rfl | rfl | rfl | rfl | rfl | rfl | rfl | rfl | rfl | rfl <;> decide

/-- The loop of `ParseUint` refuses every other character. -/
theorem digitOf_of_other (c : Char) (h : isDecimalDigit c = false) :
    digitOf c = none ∨ ∃ d, digitOf c = some d ∧ d ≥ 10 := by
  unfold digitOf
  by_cases h1 : 48 ≤ c.toNat ∧ c.toNat ≤ 57
  · exfalso
    have hc : Char.ofNat c.toNat = c := Char.ofNat_toNat c
    have : isDecimalDigit (Char.ofNat c.toNat) = true := by
      obtain ⟨h2, h3⟩ := h1
      generalize c.toNat = n at h2 h3
      interval_cases n <;> decide
    rw [hc, h] at this
    exact absurd this (by simp)
  · rw [if_neg h1]
    split
    · exact Or.inr ⟨_, rfl, by omega⟩
    · exact Or.inl rfl

/-- Further digits do not make the number smaller. -/
theorem digitsFrom_ge (ds : List Char) : ∀ acc, acc ≤ digitsFrom acc ds := by
  induction ds with
  | nil => intro acc; exact Nat.le_refl _
  | cons c ds ih =>
    intro acc
    have := ih (10 * acc + decimalDigits.indexOf c)
    simp only [digitsFrom, List.foldl_cons] at this ⊢
    omega

/-- The loop of `ParseUint`: `ErrRange` with the largest `uint64` when the leading
digits exceed `uint64`, else `ErrSyntax` with 0 when another character follows them, else
the number the digits denote. -/
theorem parseUintLoop_eq (cs : List Char) : ∀ acc, acc ≤ maxUint64 →
    parseUintLoop cs acc =
      if digitsFrom acc (cs.takeWhile isDecimalDigit) > maxUint64 then
        (maxUint64, some NumError.ErrRange)
      else if cs.all isDecimalDigit = false then (0, some NumError.ErrSyntax)
      else (digitsFrom acc (cs.takeWhile isDecimalDigit), none) := by
  induction cs with
  | nil =>
    intro acc hacc
    have : ¬ acc > maxUint64 := by omega
    simp [parseUintLoop, digitsFrom, this]
  | cons c cs ih =>
    intro acc hacc
    simp only [maxUint64] at hacc
    cases hc : isDecimalDigit c with
    | false =>
      have h1 : ¬ digitsFrom acc [] > maxUint64 := by
        simp only [digitsFrom, List.foldl_nil, maxUint64]; omega
      rw [List.takeWhile_cons, hc]
      simp only [Bool.false_eq_true, if_false, List.all_cons, hc, Bool.false_and, h1, if_true]
      rcases digitOf_of_other c hc with h | ⟨d, h, hd⟩
      · simp [parseUintLoop, h]
      · simp [parseUintLoop, h, hd]
    | true =>
      obtain ⟨hd, hlt⟩ := digitOf_of_digit c hc
      have hstep : digitsFrom acc (c :: cs.takeWhile isDecimalDigit) =
          digitsFrom (10 * acc + decimalDigits.indexOf c) (cs.takeWhile isDecimalDigit) := rfl
      have hge := digitsFrom_ge (cs.takeWhile isDecimalDigit)
        (10 * acc + decimalDigits.indexOf c)
      rw [List.takeWhile_cons, hc]
      simp only [if_true, List.all_cons, hc, Bool.true_and, hstep]
      simp only [parseUintLoop, hd]
      have h10 : ¬ decimalDigits.indexOf c ≥ 10 := by omega
      rw [if_neg h10]
      by_cases hcut : acc ≥ cutoff10
      · have hbig : digitsFrom (10 * acc + decimalDigits.indexOf c)
            (cs.takeWhile isDecimalDigit) > maxUint64 := by
          simp only [cutoff10, maxUint64] at hcut ⊢
          omega
        rw [if_pos hcut, if_pos hbig]
      · rw [if_neg hcut]
        have hcut2 : acc * 10 < 2 ^ 64 := by
          simp only [cutoff10, maxUint64] at hcut
          omega
        have e10 : (acc * 10) % 2 ^ 64 = acc * 10 := Nat.mod_eq_of_lt hcut2
        simp only [e10]
        by_cases hov : acc * 10 + decimalDigits.indexOf c ≥ 2 ^ 64
        · have hwrap : (acc * 10 + decimalDigits.indexOf c) % 2 ^ 64 < acc * 10 := by
            omega
          have hbig : digitsFrom (10 * acc + decimalDigits.indexOf c)
              (cs.takeWhile isDecimalDigit) > maxUint64 := by
            simp only [maxUint64]
            omega
          rw [if_pos (Or.inl hwrap), if_pos hbig]
        · have e1 : (acc * 10 + decimalDigits.indexOf c) % 2 ^ 64 =
              acc * 10 + decimalDigits.indexOf c := Nat.mod_eq_of_lt (by omega)
          have hno : ¬ (acc * 10 + decimalDigits.indexOf c < acc * 10 ∨
              acc * 10 + decimalDigits.indexOf c > maxUint64) := by
            simp only [maxUint64]; omega
          simp only [e1]
          rw [if_neg hno, ih _ (by simp only [maxUint64]; omega)]
          have e2 : acc * 10 + decimalDigits.indexOf c = 10 * acc + decimalDigits.indexOf c := by
            omega
          rw [e2]

/-- A list of digits is its own run of leading digits. -/
theorem takeWhile_of_all (cs : List Char) (h : cs.all isDecimalDigit = true) :
    cs.takeWhile isDecimalDigit = cs := by
  rw [List.takeWhile_eq_self_iff]
  simpa using h

/-- The function `ParseInt` on the characters after the sign. -/
theorem ParseInt_eq_spec_aux (neg : Bool) (body : List Char) :
    (let r := ParseUint body
     if r.2 = some NumError.ErrSyntax then ((0 : Int), some NumError.ErrSyntax)
     else if ¬ (neg = true) ∧ r.1 ≥ 2 ^ 63 then
       (((2 ^ 63 : Nat) : Int) - 1, some NumError.ErrRange)
     else if neg = true ∧ r.1 > 2 ^ 63 then (-((2 ^ 63 : Nat) : Int), some NumError.ErrRange)
     else (if neg = true then wrapInt64 (-wrapInt64 (r.1 : Int)) else wrapInt64 (r.1 : Int),
       none)) =
    (let v : Int := if neg then -(natOfDigits body : Int) else (natOfDigits body : Int)
     if natOfDigits (body.takeWhile isDecimalDigit) > maxUint64 then
       (if neg then minInt64 else maxInt64, some NumError.ErrRange)
     else if (decide (body ≠ []) && body.all isDecimalDigit) = false then
       (0, some NumError.ErrSyntax)
     else if v > maxInt64 then (maxInt64, some NumError.ErrRange)
     else if v < minInt64 then (minInt64, some NumError.ErrRange)
     else (v, none)) := by
  simp only
  by_cases hb : body = []
  · subst hb
    simp [ParseUint, natOfDigits, digitsFrom, maxUint64]
  · rw [ParseUint, if_neg hb, parseUintLoop_eq body 0 (by simp [maxUint64])]
    have hdf : digitsFrom 0 (body.takeWhile isDecimalDigit) =
        natOfDigits (body.takeWhile isDecimalDigit) := rfl
    rw [hdf]
    by_cases hbig : natOfDigits (body.takeWhile isDecimalDigit) > maxUint64
    · rw [if_pos hbig, if_pos hbig]
      cases neg <;> simp [maxUint64, minInt64, maxInt64]
    · rw [if_neg hbig, if_neg hbig]
      cases hall : body.all isDecimalDigit with
      | false => simp [hb]
      | true =>
        rw [takeWhile_of_all body hall] at hbig ⊢
        simp only [maxUint64] at hbig
        generalize natOfDigits body = v at hbig ⊢
        simp only [Bool.true_eq_false, if_false, hb, ne_eq, not_false_eq_true, decide_True,
          Bool.and_self, reduceCtorEq]
        cases neg with
        | false =>
          simp only [Bool.false_eq_true, not_false_eq_true, true_and, false_and, if_false,
            minInt64, maxInt64]
          by_cases h1 : v ≥ 2 ^ 63
          · have h2 : (v : Int) > 2 ^ 63 - 1 := by omega
            rw [if_pos h1, if_pos h2]
            norm_num
          · have h2 : ¬ (v : Int) > 2 ^ 63 - 1 := by omega
            have h3 : ¬ (v : Int) < -(2 ^ 63) := by omega
            have hw : wrapInt64 (v : Int) = v := by simp only [wrapInt64]; omega
            rw [if_neg h1, if_neg h2, if_neg h3, hw]
        | true =>
          simp only [not_true_eq_false, false_and, if_false, true_and, if_true, minInt64,
            maxInt64]
          have h0 : ¬ (-(v : Int) > 2 ^ 63 - 1) := by omega
          rw [if_neg h0]
          by_cases h1 : v > 2 ^ 63
          · have h2 : -(v : Int) < -(2 ^ 63) := by omega
            rw [if_pos h1, if_pos h2]
            norm_num
          · have h2 : ¬ -(v : Int) < -(2 ^ 63) := by omega
            have hw : wrapInt64 (-wrapInt64 (v : Int)) = -(v : Int) := by
              simp only [wrapInt64]; omega
            rw [if_neg h1, if_neg h2, hw]

/-- The function `ParseInt` returns what the decimal numerals prescribe, on every
string. -/
theorem ParseInt_eq_spec (s : String) : ParseInt s = parseIntSpec s := by
  unfold ParseInt parseIntSpec leadingDigits isNumeral numeralValue hasMinus unsignedPart
  cases s.toList with
  | nil => simp [natOfDigits, digitsFrom, maxUint64]
  | cons c rest =>
    have := ParseInt_eq_spec_aux (decide (c = '-'))
      (if c = '+' ∨ c = '-' then rest else c :: rest)
    simp only [decide_eq_true_eq] at this ⊢
    exact this


/-- The leading digits of a numeral denote the magnitude of its value. -/
theorem numeral_leading (s : String) (h : isNumeral s = true) :
    (natOfDigits (leadingDigits s) : Int) =
      if hasMinus s then -numeralValue s else numeralValue s := by
  simp only [isNumeral, Bool.and_eq_true] at h
  rw [leadingDigits, takeWhile_of_all _ h.2, numeralValue]
  cases hasMinus s <;> simp

/-- The result of `ParseInt` in each of the five cases of a string. -/
theorem parseIntSpec_cases (s : String) :
    (isNumeral s = false → natOfDigits (leadingDigits s) ≤ maxUint64 →
      parseIntSpec s = (0, some NumError.ErrSyntax)) ∧
    (natOfDigits (leadingDigits s) > maxUint64 →
      parseIntSpec s =
        (if hasMinus s then minInt64 else maxInt64, some NumError.ErrRange)) ∧
    (isNumeral s = true → numeralValue s > maxInt64 →
      parseIntSpec s = (maxInt64, some NumError.ErrRange)) ∧
    (isNumeral s = true → numeralValue s < minInt64 →
      parseIntSpec s = (minInt64, some NumError.ErrRange)) ∧
    (isNumeral s = true → minInt64 ≤ numeralValue s → numeralValue s ≤ maxInt64 →
      parseIntSpec s = (numeralValue s, none)) := by
  refine ⟨?_, ?_, ?_, ?_, ?_⟩
  · intro h1 h2
    have : ¬ natOfDigits (leadingDigits s) > maxUint64 := by omega
    rw [parseIntSpec, if_neg this, if_pos h1]
  · intro h1
    rw [parseIntSpec, if_pos h1]
  · intro h1 h2
    have hl := numeral_leading s h1
    unfold parseIntSpec
    by_cases hbig : natOfDigits (leadingDigits s) > maxUint64
    · rw [if_pos hbig]
      cases hm : hasMinus s with
      | false => simp
      | true =>
        rw [hm] at hl
        simp only [maxInt64, if_true] at h2 hl
        omega
    · rw [if_neg hbig, if_neg (by simp [h1]), if_pos h2]
  · intro h1 h2
    have hl := numeral_leading s h1
    unfold parseIntSpec
    by_cases hbig : natOfDigits (leadingDigits s) > maxUint64
    · rw [if_pos hbig]
      cases hm : hasMinus s with
      | true => simp
      | false =>
        rw [hm] at hl
        simp only [minInt64, Bool.false_eq_true, if_false] at h2 hl
        omega
    · have h3 : ¬ numeralValue s > maxInt64 := by
        simp only [minInt64, maxInt64] at h2 ⊢; omega
      rw [if_neg hbig, if_neg (by simp [h1]), if_neg h3, if_pos h2]
  · intro h1 h2 h3
    have hl := numeral_leading s h1
    have hbig : ¬ natOfDigits (leadingDigits s) > maxUint64 := by
      simp only [minInt64, maxInt64, maxUint64] at h2 h3 ⊢
      cases hm : hasMinus s <;> rw [hm] at hl <;> simp at hl <;> omega
    rw [parseIntSpec, if_neg hbig, if_neg (by simp [h1]), if_neg (by omega), if_neg (by omega)]

/-- The function `ParseInt` reports no error exactly for the decimal numerals of the
signed 64-bit range. -/
theorem ParseInt_ok_iff (s : String) :
    (ParseInt s).2 = none ↔
      (isNumeral s = true ∧ minInt64 ≤ numeralValue s ∧ numeralValue s ≤ maxInt64) := by
  rw [ParseInt_eq_spec]
  constructor
  · intro h
    unfold parseIntSpec at h
    by_cases hbig : natOfDigits (leadingDigits s) > maxUint64
    · rw [if_pos hbig] at h; simp at h
    · rw [if_neg hbig] at h
      cases hn : isNumeral s with
      | false => rw [if_pos hn] at h; simp at h
      | true =>
        rw [if_neg (by simp [hn])] at h
        by_cases h1 : numeralValue s > maxInt64
        · rw [if_pos h1] at h; simp at h
        · rw [if_neg h1] at h
          by_cases h2 : numeralValue s < minInt64
          · rw [if_pos h2] at h; simp at h
          · exact ⟨rfl, by omega, by omega⟩
  · rintro ⟨h1, h2, h3⟩
    rw [(parseIntSpec_cases s).2.2.2.2 h1 h2 h3]

/-- The test by the parser and the test by the numerals agree. -/
theorem isIntegerEncoding_eq (v : Iface) : isIntegerEncoding v = denotesInt64 v := by
  cases v with
  | nil => rfl
  | bool b => rfl
  | other n => rfl
  | float64 f => rfl
  | str s =>
    simp only [isIntegerEncoding, denotesInt64]
    rw [Bool.eq_iff_iff, Option.isNone_iff_eq_none, ParseInt_ok_iff]
    simp [Bool.and_eq_true, and_assoc]


/-- C13, a counterexample: the Timestamp "99999999999999999999x" is no decimal numeral,
and with the valid Duration "5" the span that is returned has the Timestamp
`2^63 - 1`, not 0: the loop of `ParseUint` reports `ErrRange` at the twentieth digit and
never reaches the letter. -/
theorem C13_counterexample :
    spanDigitsThenLetter.Timestamp = Iface.str "99999999999999999999x" ∧
    isNumeral "99999999999999999999x" = false ∧
    denotesInt64 spanDigitsThenLetter.Duration = true ∧
    ((ToZipkincoreSpan RangeOrder.listed noEndpoint spanDigitsThenLetter).2.map
      fun sp => sp.Timestamp) = some (some 9223372036854775807) ∧
    ((ToZipkincoreSpan RangeOrder.listed noEndpoint spanDigitsThenLetter).2.map
      fun sp => sp.Timestamp) ≠ some (some 0) := by
  decide

/-- C13, amended: `ToZipkincoreSpan` returns nil exactly when Duration is invalid (neither
a number nor a decimal numeral of the signed 64-bit range), or Duration is a number and
Timestamp is invalid. When Duration is a valid decimal string, the error recorded for an
invalid Timestamp is overwritten and a span is returned. Its Timestamp is 0 for a
wrong-typed Timestamp and for a string that is no decimal numeral, as long as the digits
the string starts with stay within `uint64`; it is `2^63 - 1` for a numeral above the
range and `-2^63` for a numeral below it; and for a string whose leading digits exceed
`uint64`, whatever follows them, it is `-2^63` with a minus sign and `2^63 - 1`
without. -/
theorem C13_nil_exactly_when {E : Type} (ro : RangeOrder)
    (e2z : Option E → Option Endpoint) (span : SpanV2 E) :
    ((ToZipkincoreSpan ro e2z span).2 = none ↔
      (denotesInt64 span.Duration = false ∨
       ((∃ f, span.Duration = Iface.float64 f) ∧ denotesInt64 span.Timestamp = false))) ∧
    (∀ s, span.Duration = Iface.str s → denotesInt64 (Iface.str s) = true →
      ∃ sp, (ToZipkincoreSpan ro e2z span).2 = some sp ∧
        (((∀ f, span.Timestamp ≠ Iface.float64 f) ∧ (∀ s1, span.Timestamp ≠ Iface.str s1)) →
          sp.Timestamp = some 0) ∧
        (∀ s1, span.Timestamp = Iface.str s1 →
          (isNumeral s1 = false → natOfDigits (leadingDigits s1) ≤ maxUint64 →
            sp.Timestamp = some 0) ∧
          (natOfDigits (leadingDigits s1) > maxUint64 →
            sp.Timestamp = some (if hasMinus s1 then minInt64 else maxInt64)) ∧
          (isNumeral s1 = true → numeralValue s1 > maxInt64 →
            sp.Timestamp = some maxInt64) ∧
          (isNumeral s1 = true → numeralValue s1 < minInt64 →
            sp.Timestamp = some minInt64) ∧
          (isNumeral s1 = true → minInt64 ≤ numeralValue s1 → numeralValue s1 ≤ maxInt64 →
            sp.Timestamp = some (numeralValue s1)))) := by
  constructor
  · rw [ToZipkincoreSpan_none_iff, Ne, switches_err_none, ← isIntegerEncoding_eq,
      ← isIntegerEncoding_eq]
    cases hD : span.Duration with
    | nil => simp [isIntegerEncoding]
    | bool b => simp [isIntegerEncoding]
    | other n => simp [isIntegerEncoding]
    | float64 f => simp [isIntegerEncoding]
    | str s =>
      cases hp : (ParseInt s).2 <;> simp [isIntegerEncoding, hp]
  · intro s hD hs
    rw [← isIntegerEncoding_eq] at hs
    have hs2 : (ParseInt s).2 = none := by
      simpa [isIntegerEncoding] using hs
    rw [ToZipkincoreSpan_snd, hD]
    have he :
        (switchDuration (Iface.str s) (switchTimestamp span.Timestamp).2).2 = none := by
      simp [switchDuration, hs2]
    rw [he]
    refine ⟨_, rfl, ?_, ?_⟩
    · rintro ⟨hf, hstr⟩
      cases hT : span.Timestamp with
      | nil => simp [switchTimestamp]
      | bool b => simp [switchTimestamp]
      | other n => simp [switchTimestamp]
      | float64 f => exact absurd hT (hf f)
      | str s1 => exact absurd hT (hstr s1)
    · intro s1 hT
      obtain ⟨c1, c2, c3, c4, c5⟩ := parseIntSpec_cases s1
      have hts : (switchTimestamp (Iface.str s1)).1 = (parseIntSpec s1).1 := by
        simp [switchTimestamp, ParseInt_eq_spec]
      simp only [hT, hts]
      refine ⟨?_, ?_, ?_, ?_, ?_⟩
      · intro h1 h2; rw [c1 h1 h2]
      · intro h1; rw [c2 h1]
      · intro h1 h2; rw [c3 h1 h2]
      · intro h1 h2; rw [c4 h1 h2]
      · intro h1 h2 h3; rw [c5 h1 h2 h3]

/-- The numerals "-9223372036854775809" and "9223372036854775808", one below the
smallest and one above the largest `int64`, next to the valid Duration "5": a span is
returned, with the smallest `int64` as Timestamp for the first and the largest for the
second. -/
theorem C13_nil_exactly_when_witness :
    spanTinyTimestamp.Duration = Iface.str "5" ∧ denotesInt64 (Iface.str "5") = true ∧
    spanTinyTimestamp.Timestamp = Iface.str "-9223372036854775809" ∧
    isNumeral "-9223372036854775809" = true ∧
    numeralValue "-9223372036854775809" < minInt64 ∧
    denotesInt64 spanTinyTimestamp.Timestamp = false ∧
    (∃ sp, (ToZipkincoreSpan RangeOrder.listed noEndpoint spanTinyTimestamp).2 = some sp ∧
      sp.Timestamp = some minInt64) ∧
    spanHugeTimestamp.Timestamp = Iface.str "9223372036854775808" ∧
    isNumeral "9223372036854775808" = true ∧
    numeralValue "9223372036854775808" > maxInt64 ∧
    (∃ sp, (ToZipkincoreSpan RangeOrder.listed noEndpoint spanHugeTimestamp).2 = some sp ∧
      sp.Timestamp = some maxInt64) := by
  obtain ⟨sp, h1, _, h3⟩ :=
    (C13_nil_exactly_when RangeOrder.listed noEndpoint spanTinyTimestamp).2 "5" rfl (by decide)
  obtain ⟨sp2, k1, _, k3⟩ :=
    (C13_nil_exactly_when RangeOrder.listed noEndpoint spanHugeTimestamp).2 "5" rfl (by decide)
  exact ⟨rfl, by decide, rfl, by decide, by decide, by decide,
    ⟨sp, h1, (h3 "-9223372036854775809" rfl).2.2.2.1 (by decide) (by decide)⟩,
    rfl, by decide, by decide,
    ⟨sp2, k1, (k3 "9223372036854775808" rfl).2.2.1 (by decide) (by decide)⟩⟩


/-! ## The order of insertion -/


/-- A list that rearranges two elements lists them in one of the two orders. -/
theorem perm_pair {α : Type} {a b : α} {l : List α} (h : l.Perm [a, b]) :
    l = [a, b] ∨ l = [b, a] := by
  match l, h with
  | [], h => exact absurd h.length_eq (by simp)
  | [x], h => exact absurd h.length_eq (by simp)
  | x :: y :: z :: r, h => exact absurd h.length_eq (by simp)
  | [x, y], h =>
    have hx : x ∈ [a, b] := h.mem_iff.mp (by simp)
    simp only [List.mem_cons, List.mem_singleton, List.not_mem_nil, or_false] at hx
    rcases hx with rfl | rfl
    · have := (List.perm_cons x).mp h
      rw [List.perm_singleton] at this
      exact Or.inl (by rw [List.cons.injEq] at this; rw [this.1])
    · have h2 : [x, y].Perm [x, a] := h.trans (List.Perm.swap _ _ _)
      have := (List.perm_cons x).mp h2
      rw [List.perm_singleton] at this
      exact Or.inr (by rw [List.cons.injEq] at this; rw [this.1])

/-- The merger puts the annotations and the tags of the callee half first, whichever of
a caller half and a callee half is its first argument. -/
theorem merge_order (a b : Span) (h : complementary a b) :
    (mergeSpansInPlace a b).Annotations =
      (if serverSide b then b.Annotations ++ a.Annotations
       else a.Annotations ++ b.Annotations) ∧
    (mergeSpansInPlace b a).Annotations = (mergeSpansInPlace a b).Annotations ∧
    (mergeSpansInPlace b a).BinaryAnnotations = (mergeSpansInPlace a b).BinaryAnnotations := by
  simp only [complementary, serverSide] at h
  simp only [mergeSpansInPlace, serverSide]
  cases ha : hasAnnotation a.Annotations "sr" <;> cases hb : hasAnnotation b.Annotations "sr"
    <;> simp_all

/-- The merger of a caller half and a callee half that agree on their scalar fields does
not depend on the order of its arguments. -/
theorem merge_comm (a b : Span) (hk : keyOf a = keyOf b) (h : complementary a b)
    (hs : sameScalars a b) : mergeSpansInPlace b a = mergeSpansInPlace a b := by
  obtain ⟨h1, h2, h3⟩ := merge_order a b h
  obtain ⟨s1, s2, s3, s4, s5, s6⟩ := hs
  simp only [keyOf, Prod.mk.injEq] at hk
  have hopt : ∀ x y : Option Int, agree x y →
      (y.orElse fun _ => x) = (x.orElse fun _ => y) := by
    intro x y hxy
    rcases hxy with rfl | rfl | rfl
    · cases y <;> rfl
    · cases x <;> rfl
    · rfl
  have e : ∀ s t : Span, s.TraceID = t.TraceID → s.Name = t.Name → s.ID = t.ID →
      s.ParentID = t.ParentID → s.Annotations = t.Annotations →
      s.BinaryAnnotations = t.BinaryAnnotations → s.Debug = t.Debug →
      s.Timestamp = t.Timestamp → s.Duration = t.Duration →
      s.TraceIDHigh = t.TraceIDHigh → s = t := by
    intro s t
    cases s; cases t
    simp only [Span.mk.injEq]
    intros
    simp_all
  apply e
  · exact s1.symm
  · exact s2.symm
  · exact hk.2.symm
  · simp only [mergeSpansInPlace]
    rw [hk.1]
  · exact h2
  · exact h3
  · exact s3.symm
  · exact hopt _ _ s4
  · exact hopt _ _ s5
  · exact hopt _ _ s6

/-- The halves of a key merge to the same record in both orders of insertion when they
come in the same order, and when they are a caller half and a callee half that agree on
their scalar fields. -/
theorem mergeAll_halves_eq (l1 l2 : List Span) (h : l1.Perm l2) (k : Key)
    (hk : halvesAt l1 k = halvesAt l2 k ∨
      ∃ a b, halvesAt l1 k = [a, b] ∧ complementary a b ∧ sameScalars a b) :
    mergeAll (halvesAt l1 k) = mergeAll (halvesAt l2 k) := by
  rcases hk with hk | ⟨a, b, hab, hc, hs⟩
  · rw [hk]
  · have hp : (halvesAt l2 k).Perm [a, b] := by
      rw [← hab]
      exact (h.filter _).symm
    have hka : keyOf a = k := by
      have : a ∈ halvesAt l1 k := by rw [hab]; simp
      simpa using (List.mem_filter.mp this).2
    have hkb : keyOf b = k := by
      have : b ∈ halvesAt l1 k := by rw [hab]; simp
      simpa using (List.mem_filter.mp this).2
    rcases perm_pair hp with h2 | h2
    · rw [hab, h2]
    · rw [hab, h2]
      simp only [mergeAll, List.foldl_cons, List.foldl_nil]
      rw [merge_comm a b (hka.trans hkb.symm) hc hs]

/-- The merger keeps the annotations and the tags of both halves. -/
theorem merge_perm (a b : Span) :
    (mergeSpansInPlace a b).Annotations.Perm (a.Annotations ++ b.Annotations) ∧
    (mergeSpansInPlace a b).BinaryAnnotations.Perm
      (a.BinaryAnnotations ++ b.BinaryAnnotations) := by
  simp only [mergeSpansInPlace]
  cases hasAnnotation b.Annotations "sr"
  · exact ⟨List.Perm.refl _, List.Perm.refl _⟩
  · exact ⟨List.perm_append_comm, List.perm_append_comm⟩

/-- The merged record of some halves holds the annotations and the tags of all of them. -/
theorem mergeAll_perm (H : List Span) : ∀ r, mergeAll H = some r →
    r.Annotations.Perm (H.flatMap fun s => s.Annotations) ∧
    r.BinaryAnnotations.Perm (H.flatMap fun s => s.BinaryAnnotations) := by
  induction H using List.reverseRecOn with
  | nil => intro r h; simp [mergeAll] at h
  | append_singleton xs s ih =>
    intro r h
    rw [mergeAll_concat] at h
    rw [List.flatMap_append, List.flatMap_append]
    simp only [List.flatMap_cons, List.flatMap_nil, List.append_nil]
    cases hx : mergeAll xs with
    | none =>
      have hnil : xs = [] := by
        cases xs with
        | nil => rfl
        | cons x rest => simp [mergeAll] at hx
      rw [hx] at h
      simp only [Option.some.injEq] at h
      subst hnil
      rw [← h]
      simp
    | some r0 =>
      rw [hx] at h
      simp only [Option.some.injEq] at h
      obtain ⟨i1, i2⟩ := ih r0 hx
      obtain ⟨m1, m2⟩ := merge_perm r0 s
      rw [← h]
      exact ⟨m1.trans (i1.append (List.Perm.refl _)), m2.trans (i2.append (List.Perm.refl _))⟩

/-- Whether some halves merge to a record at all. -/
theorem mergeAll_isSome (H : List Span) : (mergeAll H).isSome = !H.isEmpty := by
  cases H <;> rfl

/-- C11, amended: two orders of adding the same spans to a new tree give trees with the
same keys: `Root()` is stored under the same key and `ChildrenOf(x)` under the same keys
for every span `x`. The record at a key is the same when its halves come in the same
order. At a key shared by a caller half and a callee half, exactly one of which carries
"sr", the merged record has the same annotations and tags in the same order, those of the
callee first, and is the same record when the halves agree on their scalar fields. When
every key is of one of these two kinds, as it is when no two spans share a key, the two
trees have the same `Root()`, the same spans in `ChildrenOf(x)` and the same record at
every key. In every case the two records at a key have the same key fields and the same
annotations and tags up to their order. -/
theorem C11_insertion_order (l1 l2 : List Span) (h : l1.Perm l2) :
    ((buildTree l1).Root.map keyOf = (buildTree l2).Root.map keyOf ∧
     (∀ x, (((buildTree l1).ChildrenOf x).map keyOf).Perm
        (((buildTree l2).ChildrenOf x).map keyOf)) ∧
     (∀ k : Key, halvesAt l1 k = halvesAt l2 k →
        (buildTree l1).GetSpan k.1 k.2 = (buildTree l2).GetSpan k.1 k.2)) ∧
    (∀ (k : Key) (a b : Span), halvesAt l1 k = [a, b] → complementary a b →
      ∃ r1 r2, (buildTree l1).GetSpan k.1 k.2 = some r1 ∧
        (buildTree l2).GetSpan k.1 k.2 = some r2 ∧
        r1.Annotations = r2.Annotations ∧
        r1.BinaryAnnotations = r2.BinaryAnnotations ∧
        r1.Annotations =
          (if serverSide b then b.Annotations ++ a.Annotations
           else a.Annotations ++ b.Annotations) ∧
        (sameScalars a b → r1 = r2)) ∧
    ((∀ k, halvesAt l1 k = halvesAt l2 k ∨
        ∃ a b, halvesAt l1 k = [a, b] ∧ complementary a b ∧ sameScalars a b) →
      (buildTree l1).Root = (buildTree l2).Root ∧
      (∀ x, ((buildTree l1).ChildrenOf x).Perm ((buildTree l2).ChildrenOf x)) ∧
      (∀ p id, (buildTree l1).GetSpan p id = (buildTree l2).GetSpan p id)) ∧
    ((l1.map keyOf).Nodup → ∀ k, halvesAt l1 k = halvesAt l2 k) ∧
    (∀ k : Key, ((buildTree l1).GetSpan k.1 k.2).isSome =
        ((buildTree l2).GetSpan k.1 k.2).isSome) ∧
    (∀ (k : Key) (r1 r2 : Span), (buildTree l1).GetSpan k.1 k.2 = some r1 →
      (buildTree l2).GetSpan k.1 k.2 = some r2 →
        r1.Annotations.Perm r2.Annotations ∧
        r1.BinaryAnnotations.Perm r2.BinaryAnnotations ∧
        r1.ID = r2.ID ∧ r1.ParentID = r2.ParentID) := by
  refine ⟨⟨?_, ?_, ?_⟩, ?_, ?_, ?_, ?_, ?_⟩
  · rw [Root_key _ (keyOf_nodes_buildTree l1), Root_key _ (keyOf_nodes_buildTree l2)]
    exact rootKey_perm (keys_perm l1 l2 h)
  · intro x
    rw [ChildrenOf_keys _ (keyOf_nodes_buildTree l1), ChildrenOf_keys _ (keyOf_nodes_buildTree l2)]
    exact (keys_perm l1 l2 h).filter _
  · intro k hk
    rw [GetSpan_buildTree, GetSpan_buildTree, hk]
  · intro k a b hab hc
    have hp : (halvesAt l2 k).Perm [a, b] := by
      rw [← hab]
      exact (h.filter _).symm
    have hka : keyOf a = k := by
      have : a ∈ halvesAt l1 k := by rw [hab]; simp
      simpa using (List.mem_filter.mp this).2
    have hkb : keyOf b = k := by
      have : b ∈ halvesAt l1 k := by rw [hab]; simp
      simpa using (List.mem_filter.mp this).2
    obtain ⟨m1, m2, m3⟩ := merge_order a b hc
    have e1 : (buildTree l1).GetSpan k.1 k.2 = some (mergeSpansInPlace a b) := by
      rw [GetSpan_buildTree, hab]; rfl
    rcases perm_pair hp with h2 | h2
    · have e2 : (buildTree l2).GetSpan k.1 k.2 = some (mergeSpansInPlace a b) := by
        rw [GetSpan_buildTree, h2]; rfl
      exact ⟨_, _, e1, e2, rfl, rfl, m1, fun _ => rfl⟩
    · have e2 : (buildTree l2).GetSpan k.1 k.2 = some (mergeSpansInPlace b a) := by
        rw [GetSpan_buildTree, h2]; rfl
      exact ⟨_, _, e1, e2, m2.symm, m3.symm, m1,
        fun hs => (merge_comm a b (hka.trans hkb.symm) hc hs).symm⟩
  · intro hk
    have hm : ∀ k, mergeAll (halvesAt l1 k) = mergeAll (halvesAt l2 k) :=
      fun k => mergeAll_halves_eq l1 l2 h k (hk k)
    have hn := nodes_perm l1 l2 hm
    refine ⟨Root_perm _ _ hn, ?_, ?_⟩
    · intro x
      exact (hn.filter _).map _
    · intro p id
      have e1 : (buildTree l1).GetSpan p id = mergeAll (halvesAt l1 (p, id)) :=
        GetSpan_buildTree l1 (p, id)
      have e2 : (buildTree l2).GetSpan p id = mergeAll (halvesAt l2 (p, id)) :=
        GetSpan_buildTree l2 (p, id)
      rw [e1, e2, hm]
  · intro hn k
    exact halvesAt_of_nodup l1 l2 h hn k
  · intro k
    have hp : (halvesAt l1 k).Perm (halvesAt l2 k) := h.filter _
    rw [GetSpan_buildTree, GetSpan_buildTree, mergeAll_isSome, mergeAll_isSome]
    cases h1 : halvesAt l1 k with
    | nil => rw [h1] at hp; rw [List.perm_nil.mp hp.symm]
    | cons x r =>
      cases h2 : halvesAt l2 k with
      | nil => rw [h1, h2] at hp; exact absurd hp.length_eq (by simp)
      | cons y q => rfl
  · intro k r1 r2 h1 h2
    have hp : (halvesAt l1 k).Perm (halvesAt l2 k) := h.filter _
    have k1 : keyOf r1 = k :=
      keyOf_nodes_buildTree l1 (k, r1) ((mem_nodes_buildTree l1 (k, r1)).mpr h1)
    have k2 : keyOf r2 = k :=
      keyOf_nodes_buildTree l2 (k, r2) ((mem_nodes_buildTree l2 (k, r2)).mpr h2)
    rw [GetSpan_buildTree] at h1 h2
    obtain ⟨a1, b1⟩ := mergeAll_perm _ r1 h1
    obtain ⟨a2, b2⟩ := mergeAll_perm _ r2 h2
    have hk : keyOf r1 = keyOf r2 := k1.trans k2.symm
    simp only [keyOf, Prod.mk.injEq] at hk
    exact ⟨a1.trans ((hp.flatMap_right _).trans a2.symm),
      b1.trans ((hp.flatMap_right _).trans b2.symm), hk.2, hk.1⟩

/-- The four spans of `TestCorrectTimings` in two orders that insert the halves of the
shared span in opposite orders: the merged record has the annotations
`[sr, ss, cs, cr]` and the same tags in both trees. A caller half and a callee half that
agree on their scalar fields merge to the same record in both orders. -/
theorem C11_insertion_order_witness :
    testSpansListed.Perm testSpansMixed ∧
    halvesAt testSpansListed (some 1, 2) =
      [spanAt 100 200 1110 1190 1, spanAt 100 200 1110 1190 2] ∧
    halvesAt testSpansMixed (some 1, 2) =
      [spanAt 100 200 1110 1190 2, spanAt 100 200 1110 1190 1] ∧
    complementary (spanAt 100 200 1110 1190 1) (spanAt 100 200 1110 1190 2) ∧
    (∃ r1 r2, (buildTree testSpansListed).GetSpan (some 1) 2 = some r1 ∧
      (buildTree testSpansMixed).GetSpan (some 1) 2 = some r2 ∧
      r1.Annotations = r2.Annotations ∧ r1.BinaryAnnotations = r2.BinaryAnnotations ∧
      r1.Annotations.map (fun a => a.Value) = ["sr", "ss", "cs", "cr"]) ∧
    [callHalves.1, callHalves.2].Perm [callHalves.2, callHalves.1] ∧
    complementary callHalves.1 callHalves.2 ∧ sameScalars callHalves.1 callHalves.2 ∧
    (buildTree [callHalves.1, callHalves.2]).GetSpan (some 1) 2 =
      (buildTree [callHalves.2, callHalves.1]).GetSpan (some 1) 2 := by
  have hperm : testSpansListed.Perm testSpansMixed :=
    List.Perm.map _ (by decide : ([0, 1, 2, 3] : List (Fin 4)).Perm [2, 0, 3, 1])
  obtain ⟨r1, r2, e1, e2, e3, e4, e5, _⟩ :=
    (C11_insertion_order testSpansListed testSpansMixed hperm).2.1 (some 1, 2)
      (spanAt 100 200 1110 1190 1) (spanAt 100 200 1110 1190 2) (by decide) (by decide)
  obtain ⟨q1, q2, f1, f2, _, _, _, f6⟩ :=
    (C11_insertion_order [callHalves.1, callHalves.2] [callHalves.2, callHalves.1]
      (List.Perm.swap _ _ _)).2.1 (some 1, 2) callHalves.1 callHalves.2 (by decide)
      (by decide)
  refine ⟨hperm, by decide, by decide, by decide, ⟨r1, r2, e1, e2, e3, e4, ?_⟩,
    List.Perm.swap _ _ _, by decide, by decide, ?_⟩
  · rw [e5]; decide
  · exact f1.trans ((congrArg some (f6 (by decide))).trans f2.symm)

end Zipkinproxy
